import Mathlib

/-!
Verification of the partition engine of `go-jamf-guid-sharder`.

This file gives a shallow embedding of the engine's core
(`applyExclusions`, `applyReservations`, the four strategy functions in
`strategies.go`, and the dispatch in `runShard`) and proves/refutes the
frozen claims about it.

Modelling conventions:
* An identifier is guaranteed upstream to be a canonical decimal numeral
  string; it is compared and sorted by its numeric value everywhere, and
  the only place its string form matters (the rendezvous hash input) uses
  the canonical decimal rendering.  We therefore model an identifier as a
  `Nat`, rendered with `toString` where the source hashes the string.
* A Go slice of identifiers is `GoSlice := Option (List Nat)`:
  `none` models a nil slice, `some xs` a materialized slice holding `xs`.
  `goAppendList` mirrors Go `append` (appending zero elements returns the
  base slice unchanged; appending at least one always materializes).
* Go's `math/rand` generator is kept abstract: an `RNGImpl σ` provides
  `ofSeedValue` (the composition `rand.New ∘ rand.NewSource`) and `intn`
  (`(*rand.Rand).Intn`).  The derivation of the seed value from the seed
  string (SHA-256, first 8 bytes big-endian, cast to int64) is concrete.
* SHA-256 itself is implemented concretely below over byte lists
  (`Nat` values < 256), with the round constants computed from integer
  square/cube roots of the first primes.
* Go map iteration order is unspecified; maps arriving from the config
  are modelled as association lists and iterated in list order.  All
  claim statements are either order-independent or quantified over the
  association list as given.
* `slices.SortFunc` is an unstable sort, but it sorts `Nat` values by a
  total order so its output is uniquely determined; we model it with
  `List.insertionSort`.
* `int(float64(a) * float64(b) / 100.0)` is modelled as exact integer
  division truncating toward zero (`Int.tdiv`); the float computation
  agrees with it for every magnitude the tool can encounter.
-/

/-! ### Go slices of identifiers -/

/-- A Go `[]string` of identifiers: `none` is a nil slice. -/
abbrev GoSlice := Option (List Nat)

/-- The elements of a Go slice (nil has none). -/
def sElems (s : GoSlice) : List Nat := s.getD []

/-- Go `append(s, xs...)`: appending no elements returns `s` itself
(nil stays nil); appending at least one element materializes. -/
def goAppendList (s : GoSlice) (xs : List Nat) : GoSlice :=
  match xs with
  | [] => s
  | _ => some (sElems s ++ xs)

/-- `shards[i] = append(shards[i], id)` on a list of buckets.
An out-of-range index leaves the buckets unchanged (unreachable in the
source, where the index is always `< len(shards)`). -/
def bucketAppend (sh : List GoSlice) (i : Nat) (id : Nat) : List GoSlice :=
  sh.set i (goAppendList (sh.getD i none) [id])

/-- Concatenation of the identifiers of all buckets. -/
def joinElems (sh : List GoSlice) : List Nat := (sh.map sElems).flatten

/-! ### SHA-256 over byte lists -/

/-- Mask to 32 bits. -/
def m32 (x : Nat) : Nat := x % 4294967296

/-- 32-bit right rotation. -/
def rotr32 (n x : Nat) : Nat := m32 ((x >>> n) ||| (x <<< (32 - n)))

/-- Integer cube root by binary search (fuel-driven; 200 halvings are
ample for every input used here). -/
def icbrtGo (n : Nat) : Nat → Nat → Nat → Nat
  | lo, _, 0 => lo
  | lo, hi, fuel + 1 =>
      if hi ≤ lo + 1 then lo
      else
        let mid := (lo + hi) / 2
        if mid * mid * mid ≤ n then icbrtGo n mid hi fuel else icbrtGo n lo mid fuel

/-- Integer cube root (floor). -/
def icbrt (n : Nat) : Nat := icbrtGo n 0 (n + 1) 200

/-- The first 64 primes, used for the SHA-256 round constants. -/
def sha256Primes : List Nat :=
  [2, 3, 5, 7, 11, 13, 17, 19, 23, 29, 31, 37, 41, 43, 47, 53,
   59, 61, 67, 71, 73, 79, 83, 89, 97, 101, 103, 107, 109, 113, 127, 131,
   137, 139, 149, 151, 157, 163, 167, 173, 179, 181, 191, 193, 197, 199, 211, 223,
   227, 229, 233, 239, 241, 251, 257, 263, 269, 271, 277, 281, 283, 293, 307, 311]

/-- SHA-256 initial hash values: first 32 bits of the fractional parts of
the square roots of the first 8 primes. -/
def sha256H0 : List Nat :=
  (sha256Primes.take 8).map (fun p => m32 (Nat.sqrt (p * 18446744073709551616)))

/-- SHA-256 round constants: first 32 bits of the fractional parts of the
cube roots of the first 64 primes. -/
def sha256K : List Nat :=
  sha256Primes.map (fun p => m32 (icbrt (p * 79228162514264337593543950336)))

/-- Small sigma 0 of the message schedule. -/
def ssig0 (x : Nat) : Nat := (rotr32 7 x) ^^^ (rotr32 18 x) ^^^ (x >>> 3)

/-- Small sigma 1 of the message schedule. -/
def ssig1 (x : Nat) : Nat := (rotr32 17 x) ^^^ (rotr32 19 x) ^^^ (x >>> 10)

/-- Big sigma 0 of the compression function. -/
def bsig0 (x : Nat) : Nat := (rotr32 2 x) ^^^ (rotr32 13 x) ^^^ (rotr32 22 x)

/-- Big sigma 1 of the compression function. -/
def bsig1 (x : Nat) : Nat := (rotr32 6 x) ^^^ (rotr32 11 x) ^^^ (rotr32 25 x)

/-- Next message-schedule word from the last 16 words. -/
def sha256NextW (w : List Nat) : Nat :=
  let l := w.length
  m32 (ssig1 (w.getD (l - 2) 0) + w.getD (l - 7) 0 +
       ssig0 (w.getD (l - 15) 0) + w.getD (l - 16) 0)

/-- Extend the 16 block words by `n` schedule words. -/
def sha256Extend (w : List Nat) : Nat → List Nat
  | 0 => w
  | n + 1 => sha256Extend (w ++ [sha256NextW w]) n

/-- Working state of the SHA-256 compression function. -/
structure Sha256State where
  a : Nat
  b : Nat
  c : Nat
  d : Nat
  e : Nat
  f : Nat
  g : Nat
  h : Nat

/-- One compression round; `kw` is `K_t + W_t`. -/
def sha256Round (st : Sha256State) (kw : Nat) : Sha256State :=
  let ch := (st.e &&& st.f) ^^^ ((st.e ^^^ 4294967295) &&& st.g)
  let maj := (st.a &&& st.b) ^^^ (st.a &&& st.c) ^^^ (st.b &&& st.c)
  let t1 := m32 (st.h + bsig1 st.e + ch + kw)
  let t2 := m32 (bsig0 st.a + maj)
  ⟨m32 (t1 + t2), st.a, st.b, st.c, m32 (st.d + t1), st.e, st.f, st.g⟩

/-- Compress one 16-word block into the running hash. -/
def sha256Block (hv : List Nat) (block : List Nat) : List Nat :=
  let w := sha256Extend block 48
  let st0 : Sha256State :=
    ⟨hv.getD 0 0, hv.getD 1 0, hv.getD 2 0, hv.getD 3 0,
     hv.getD 4 0, hv.getD 5 0, hv.getD 6 0, hv.getD 7 0⟩
  let stF := (sha256K.zipWith (fun k v => m32 (k + v)) w).foldl sha256Round st0
  (hv.zipWith (fun x y => m32 (x + y))
    [stF.a, stF.b, stF.c, stF.d, stF.e, stF.f, stF.g, stF.h])

/-- Big-endian bytes of `n`, `k` bytes wide. -/
def beBytes : Nat → Nat → List Nat
  | 0, _ => []
  | k + 1, n => (n >>> (8 * k)) % 256 :: beBytes k n

/-- SHA-256 padding of a byte message. -/
def sha256Pad (msg : List Nat) : List Nat :=
  msg ++ [128] ++ List.replicate ((119 - msg.length % 64) % 64) 0 ++
    beBytes 8 (8 * msg.length)

/-- Group a byte list into big-endian 32-bit words. -/
def bytesToWords : List Nat → List Nat
  | b0 :: b1 :: b2 :: b3 :: rest => (((b0 * 256 + b1) * 256 + b2) * 256 + b3) :: bytesToWords rest
  | _ => []

/-- Group a word list into 16-word blocks. -/
def chunkWords (l : List Nat) : List (List Nat) :=
  if l = [] then [] else l.take 16 :: chunkWords (l.drop 16)
termination_by l.length
decreasing_by
  simp only [List.length_drop]
  cases l with
  | nil => simp_all
  | cons x xs => simp; omega

/-- SHA-256 digest (32 bytes) of a byte message. -/
def sha256 (msg : List Nat) : List Nat :=
  let blocks := chunkWords (bytesToWords (sha256Pad msg))
  (blocks.foldl sha256Block sha256H0).flatMap (beBytes 4)

/-- UTF-8 encoding of one character. -/
def utf8Char (c : Char) : List Nat :=
  let n := c.toNat
  if n < 128 then [n]
  else if n < 2048 then [192 ||| (n >>> 6), 128 ||| (n &&& 63)]
  else if n < 65536 then
    [224 ||| (n >>> 12), 128 ||| ((n >>> 6) &&& 63), 128 ||| (n &&& 63)]
  else
    [240 ||| (n >>> 18), 128 ||| ((n >>> 12) &&& 63),
     128 ||| ((n >>> 6) &&& 63), 128 ||| (n &&& 63)]

/-- UTF-8 encoding of a string as a byte list. -/
def utf8Encode (s : String) : List Nat := s.data.flatMap utf8Char

/-- First 8 bytes of the SHA-256 digest of a string, read as a big-endian
unsigned 64-bit integer (`binary.BigEndian.Uint64(hash[:8])`). -/
def sha256Uint64BE (s : String) : Nat :=
  ((sha256 (utf8Encode s)).take 8).foldl (fun a b => a * 256 + b) 0

/-- Reinterpret a `uint64` value as Go `int64` (two's complement). -/
def toInt64 (u : Nat) : Int :=
  if u < 9223372036854775808 then (u : Int) else (u : Int) - 18446744073709551616

/-! ### The abstract `math/rand` generator -/

/-- Abstract interface of Go's `math/rand`: `ofSeedValue` models
`rand.New(rand.NewSource v)` and `intn` models `(*rand.Rand).Intn`,
returning the drawn value and the successor state. -/
structure RNGImpl (σ : Type) where
  ofSeedValue : Int → σ
  intn : σ → Nat → Nat × σ

/-- Go guarantee on `Intn`: the result is in `[0, n)` for positive `n`. -/
def RNGOk {σ : Type} (R : RNGImpl σ) : Prop :=
  ∀ r n, 0 < n → (R.intn r n).1 < n

/-- A degenerate but `RNGOk` generator used to instantiate witnesses. -/
def trivialRNG : RNGImpl Unit :=
  ⟨fun _ => (), fun _ _ => (0, ())⟩

/-- `createSeededRNG`: hash the seed string with SHA-256, read the first
8 bytes as a big-endian `uint64`, cast to `int64`, and seed the
generator with it. -/
def createSeededRNG {σ : Type} (R : RNGImpl σ) (seed : String) : σ :=
  R.ofSeedValue (toInt64 (sha256Uint64BE seed))

/-! ### Sorting and the seeded shuffle -/

/-- `sortIDsNumerically`: sort identifiers ascending by numeric value.
The source's unstable `slices.SortFunc` has uniquely determined output on
a totally ordered value type; any correct sorting algorithm is an exact
model, and `insertionSort` is used because it reduces definitionally. -/
def sortIDsNumerically (ids : List Nat) : List Nat :=
  ids.insertionSort (· ≤ ·)

/-- Swap two positions of a list (both in range in every use below). -/
def listSwap (xs : List Nat) (i j : Nat) : List Nat :=
  (xs.set i (xs.getD j 0)).set j (xs.getD i 0)

/-- The Fisher–Yates loop `for i := len-1; i > 0; i-- { j := Intn(i+1); swap }`,
with `i` as the recursion counter. -/
def fyLoop {σ : Type} (intn : σ → Nat → Nat × σ) : σ → List Nat → Nat → List Nat
  | _, xs, 0 => xs
  | r, xs, i + 1 =>
      let p := intn r (i + 2)
      fyLoop intn p.2 (listSwap xs (i + 1) p.1) i

/-- `shuffleIDs`: deterministic Fisher–Yates shuffle seeded from the seed
string; returns a new slice. -/
def shuffleIDs {σ : Type} (R : RNGImpl σ) (ids : List Nat) (seed : String) : List Nat :=
  fyLoop R.intn (createSeededRNG R seed) ids (ids.length - 1)

/-- `sortAndShuffleIfSeed`: identity for an empty seed, otherwise sort
numerically then shuffle deterministically. -/
def sortAndShuffleIfSeed {σ : Type} (R : RNGImpl σ) (ids : List Nat) (seed : String) : List Nat :=
  if seed = "" then ids else shuffleIDs R (sortIDsNumerically ids) seed

/-! ### Shard-name parsing, exclusions and reservations -/

/-- Digits-only parse of a character list to a number. -/
def parseDigits (cs : List Char) : Option Nat :=
  if cs = [] ∨ ¬ cs.all Char.isDigit then none
  else some (cs.foldl (fun a c => a * 10 + (c.toNat - 48)) 0)

/-- Model of `fmt.Sscanf(name, "shard_%d", &idx)` for the key shapes the
validator admits: a `shard_` prefix followed by an optionally signed
decimal numeral.  (Go's `Sscanf` would also ignore trailing junk, which
never occurs for keys that reach the engine.) -/
def parseShardIdx (s : String) : Option Int :=
  match s.data with
  | 's' :: 'h' :: 'a' :: 'r' :: 'd' :: '_' :: rest =>
      match rest with
      | '-' :: ds => (parseDigits ds).map (fun n => -(n : Int))
      | ds => (parseDigits ds).map (fun n => (n : Int))
  | _ => none

/-- The canonical shard name of index `i`. -/
def shardName (i : Nat) : String := "shard_" ++ toString i

/-- The fatal errors of the partition engine, carrying the same data as
the corresponding `fmt.Errorf` messages. -/
inductive ShardError where
  | invalidShardName (name : String)
  | shardIndexOutOfRange (name : String) (shardCount : Int)
  | duplicateReservation (id : Nat) (firstShard secondShard : String)
  | unknownStrategy (name : String)
  deriving DecidableEq

/-- The `shardReservations` record: reserved lists by shard name (an
association list standing for the Go map, iterated in list order),
reserved counts by shard index (total map with Go zero-value default),
and the unreserved pool. -/
structure ShardReservations where
  idsByShard : List (String × List Nat)
  countsByShard : Int → Nat
  unreservedIDs : List Nat

/-- `applyExclusions`: remove every identifier present in `excludeIDs`. -/
def applyExclusions (ids excludeIDs : List Nat) : List Nat :=
  if excludeIDs = [] then ids
  else ids.filter (fun id => !(excludeIDs.contains id))

/-- The per-entry duplicate check of `applyReservations`: walk the
entry's identifier list, failing on one already seen, else recording it
with this entry's shard name. -/
def checkIDs (name : String) : List Nat → List (Nat × String) →
    Except ShardError (List (Nat × String))
  | [], seen => .ok seen
  | id :: rest, seen =>
      match seen.lookup id with
      | some prev => .error (.duplicateReservation id prev name)
      | none => checkIDs name rest ((id, name) :: seen)

/-- The entry loop of `applyReservations`: validate each key, check each
identifier for duplicates, and accumulate `IDsByShard`, `CountsByShard`
and the seen-set. -/
def applyResGo (shardCount : Int) :
    List (String × List Nat) → List (String × List Nat) → (Int → Nat) →
    List (Nat × String) →
    Except ShardError (List (String × List Nat) × (Int → Nat) × List (Nat × String))
  | [], acc, counts, seen => .ok (acc, counts, seen)
  | (name, l) :: rest, acc, counts, seen =>
      match parseShardIdx name with
      | none => .error (.invalidShardName name)
      | some idx =>
          if idx < 0 ∨ shardCount ≤ idx then .error (.shardIndexOutOfRange name shardCount)
          else
            match checkIDs name l seen with
            | .error e => .error e
            | .ok seen2 =>
                applyResGo shardCount rest (acc ++ [(name, l)])
                  (fun j => if j = idx then l.length else counts j) seen2

/-- `applyReservations`: partition the pool into reserved and unreserved
identifiers, validating shard names and cross-shard uniqueness. -/
def applyReservations (ids : List Nat) (reservedMap : List (String × List Nat))
    (shardCount : Int) : Except ShardError ShardReservations :=
  if reservedMap = [] then .ok ⟨[], fun _ => 0, ids⟩
  else
    match applyResGo shardCount reservedMap [] (fun _ => 0) [] with
    | .error e => .error e
    | .ok (acc, counts, seen) =>
        let unres :=
          if seen = [] then ids
          else ids.filter (fun id => !(seen.any (fun p => p.1 == id)))
        .ok ⟨acc, counts, unres⟩

/-! ### The four strategies -/

/-- `shardCount <= 0` is clamped to 1 by round-robin and rendezvous. -/
def effShardCount (shardCount : Int) : Nat :=
  if shardCount ≤ 0 then 1 else shardCount.toNat

/-- The pool a strategy distributes: `reservations.UnreservedIDs` when a
reservation record is passed, the raw `ids` parameter otherwise. -/
def unreservedPool (ids : List Nat) : Option ShardReservations → List Nat
  | none => ids
  | some r => r.unreservedIDs

/-- `reservations.CountsByShard[i]`, `0` when `reservations == nil`. -/
def resCount (res : Option ShardReservations) (i : Nat) : Nat :=
  match res with
  | none => 0
  | some r => r.countsByShard (i : Int)

/-- One reservation-merge step:
`shards[idx] = append(reservedIDs, shards[idx]...)` after re-parsing the
shard name (a failed parse leaves Go's zero value `0`; an out-of-range
index, which cannot survive `applyReservations`, is modelled as a
no-op where Go would panic).  `mergeIdx` is the re-parsed index (Go's
zero value `0` on a failed parse). -/
def mergeIdx (e : String × List Nat) : Int :=
  match parseShardIdx e.1 with
  | some i => i
  | none => 0

/-- Body of `mergeEntry`, see there. -/
def mergeEntry (sh : List GoSlice) (e : String × List Nat) : List GoSlice :=
  if 0 ≤ mergeIdx e ∧ (mergeIdx e).toNat < sh.length then
    sh.set (mergeIdx e).toNat
      (goAppendList (some e.2) (sElems (sh.getD (mergeIdx e).toNat none)))
  else sh

/-- Merge every reserved list into its bucket (loop over the map). -/
def mergeReservations (sh : List GoSlice) : Option ShardReservations → List GoSlice
  | none => sh
  | some r => r.idsByShard.foldl mergeEntry sh

/-- In-place numeric sort of one bucket: nil stays nil. -/
def sortBucket : GoSlice → GoSlice := Option.map sortIDsNumerically

/-- The round-robin assignment loop: element at position `i` goes to
bucket `i % k`. -/
def roundRobinGo (k : Nat) : List Nat → Nat → List GoSlice → List GoSlice
  | [], _, sh => sh
  | id :: rest, i, sh => roundRobinGo k rest (i + 1) (bucketAppend sh (i % k) id)

/-- `shardByRoundRobin`. -/
def shardByRoundRobin {σ : Type} (R : RNGImpl σ) (ids : List Nat) (shardCount : Int)
    (seed : String) (res : Option ShardReservations) : List GoSlice :=
  let k := effShardCount shardCount
  let unres := unreservedPool ids res
  let dist := sortAndShuffleIfSeed R unres seed
  let sh := roundRobinGo k dist 0 (List.replicate k none)
  (mergeReservations sh res).map sortBucket

/-- `int(float64(totalIDs) * float64(percentage) / 100.0)`, modelled as
exact division truncating toward zero. -/
def percSize (totalIDs : Nat) (p : Int) : Int := Int.tdiv ((totalIDs : Nat) * p) 100

/-- The slice-carving computation of `shardByPercentage`: the target
size of shard `i` at cursor `c` (`n` is the shard count, `unresLen` the
distributable pool size, `totalIDs` the pre-reservation pool size),
clamped to the remaining pool. -/
def percShardSize (unresLen totalIDs : Nat) (rc : Nat → Nat)
    (n i c : Nat) (p : Int) : Int :=
  let size0 : Int :=
    if i = n - 1 then (unresLen : Int) - (c : Int)
    else percSize totalIDs p - (rc i : Int)
  if (c : Int) + size0 > (unresLen : Int) then (unresLen : Int) - (c : Int) else size0

/-- Loop body of `shardByPercentage`, see there; `rc` is the reserved
count by shard index (`resCount` of the reservation record). -/
def percLoop (dist : List Nat) (unresLen totalIDs : Nat) (rc : Nat → Nat)
    (n : Nat) : List Int → Nat → Nat → List GoSlice → List GoSlice × Nat
  | [], _, c, sh => (sh, c)
  | p :: rest, i, c, sh =>
      if 0 < percShardSize unresLen totalIDs rc n i c p then
        percLoop dist unresLen totalIDs rc n rest (i + 1)
          (c + (percShardSize unresLen totalIDs rc n i c p).toNat)
          (sh.set i (some ((dist.drop c).take (percShardSize unresLen totalIDs rc n i c p).toNat)))
      else
        percLoop dist unresLen totalIDs rc n rest (i + 1) c sh

/-- `shardByPercentage` (note the early return of all-nil buckets, before
reservations are merged, when the distributable pool is empty). -/
def shardByPercentage {σ : Type} (R : RNGImpl σ) (ids : List Nat) (percentages : List Int)
    (seed : String) (res : Option ShardReservations) : List GoSlice :=
  let unres := unreservedPool ids res
  let totalIDs := ids.length
  let n := percentages.length
  let sh0 := List.replicate n (none : GoSlice)
  if unres.length = 0 then sh0
  else
    let dist := sortAndShuffleIfSeed R unres seed
    let sh := (percLoop dist unres.length totalIDs (resCount res) n percentages 0 0 sh0).1
    (mergeReservations sh res).map sortBucket

/-- The slice-carving computation of `shardBySize`: `-1` takes all
remaining identifiers, an explicit size is adjusted by the reserved
count and clamped to the remaining pool. -/
def sizeShardSize (unresLen : Nat) (rc : Nat → Nat)
    (i c : Nat) (s : Int) : Int :=
  if s = -1 then (unresLen : Int) - (c : Int)
  else
    let t : Int := s - (rc i : Int)
    if (c : Int) + t > (unresLen : Int) then (unresLen : Int) - (c : Int) else t

/-- Loop body of `shardBySize`, see there; `rc` as in `percLoop`. -/
def sizeLoop (dist : List Nat) (unresLen : Nat) (rc : Nat → Nat) :
    List Int → Nat → Nat → List GoSlice → List GoSlice × Nat
  | [], _, c, sh => (sh, c)
  | s :: rest, i, c, sh =>
      if 0 < sizeShardSize unresLen rc i c s ∧ c < unresLen then
        sizeLoop dist unresLen rc rest (i + 1) (c + (sizeShardSize unresLen rc i c s).toNat)
          (sh.set i (some ((dist.drop c).take (sizeShardSize unresLen rc i c s).toNat)))
      else
        sizeLoop dist unresLen rc rest (i + 1) c (sh.set i (some []))

/-- `shardBySize` (with the same pre-merge early return as percentage). -/
def shardBySize {σ : Type} (R : RNGImpl σ) (ids : List Nat) (sizes : List Int)
    (seed : String) (res : Option ShardReservations) : List GoSlice :=
  let unres := unreservedPool ids res
  let n := sizes.length
  let sh0 := List.replicate n (none : GoSlice)
  if unres.length = 0 then sh0
  else
    let dist := sortAndShuffleIfSeed R unres seed
    let sh := (sizeLoop dist unres.length (resCount res) sizes 0 0 sh0).1
    (mergeReservations sh res).map sortBucket

/-- The rendezvous hash input `"<id>:shard_<s>:<seed>"`. -/
def rendezvousInput (id : Nat) (shardIdx : Nat) (seed : String) : String :=
  toString id ++ ":shard_" ++ toString shardIdx ++ ":" ++ seed

/-- The rendezvous weight: first 8 bytes, big-endian, of the SHA-256
digest of the hash input. -/
def rendezvousWeight (id : Nat) (shardIdx : Nat) (seed : String) : Nat :=
  sha256Uint64BE (rendezvousInput id shardIdx seed)

/-- The candidate scan of `shardByRendezvous`: the accumulator is
`(highestWeight, selectedShard)`, updated only on strictly greater
weight. -/
def selectLoop (w : Nat → Nat) : List Nat → Nat × Nat → Nat × Nat
  | [], acc => acc
  | s :: rest, acc => selectLoop w rest (if w s > acc.1 then (w s, s) else acc)

/-- The shard selected for one identifier by the rendezvous scan over
`s = 0 .. k-1`, starting from `(0, 0)`. -/
def selectShard (id : Nat) (seed : String) (k : Nat) : Nat :=
  (selectLoop (fun s => rendezvousWeight id s seed) (List.range k) (0, 0)).2

/-- The per-identifier assignment loop of `shardByRendezvous`. -/
def rendezvousGo (seed : String) (k : Nat) : List Nat → List GoSlice → List GoSlice
  | [], sh => sh
  | id :: rest, sh => rendezvousGo seed k rest (bucketAppend sh (selectShard id seed k) id)

/-- `shardByRendezvous` (buckets are pre-materialized as empty lists). -/
def shardByRendezvous (ids : List Nat) (shardCount : Int) (seed : String)
    (res : Option ShardReservations) : List GoSlice :=
  let k := effShardCount shardCount
  let unres := unreservedPool ids res
  let sh := rendezvousGo seed k unres (List.replicate k (some []))
  (mergeReservations sh res).map sortBucket

/-! ### Configuration and the pipeline core of `runShard` -/

/-- The fields of `shardConfig` consumed by the partition engine. -/
structure SConfig where
  strategy : String
  shardCount : Int
  shardPercentages : List Int
  shardSizes : List Int
  seed : String
  excludeIDs : List Nat
  reservedIDs : List (String × List Nat)

/-- `resolveShardCount`: infer the shard count from whichever parameter
is populated. -/
def resolveShardCount (cfg : SConfig) : Int :=
  if cfg.shardPercentages ≠ [] then (cfg.shardPercentages.length : Int)
  else if cfg.shardSizes ≠ [] then (cfg.shardSizes.length : Int)
  else cfg.shardCount

/-- `applyStrategy`: dispatch on the strategy name. -/
def applyStrategy {σ : Type} (R : RNGImpl σ) (cfg : SConfig) (ids : List Nat)
    (res : Option ShardReservations) : Except ShardError (List GoSlice) :=
  if cfg.strategy = "round-robin" then
    .ok (shardByRoundRobin R ids cfg.shardCount cfg.seed res)
  else if cfg.strategy = "rendezvous" then
    .ok (shardByRendezvous ids cfg.shardCount cfg.seed res)
  else if cfg.strategy = "percentage" then
    .ok (shardByPercentage R ids cfg.shardPercentages cfg.seed res)
  else if cfg.strategy = "size" then
    .ok (shardBySize R ids cfg.shardSizes cfg.seed res)
  else .error (.unknownStrategy cfg.strategy)

/-- The partition-engine core of `runShard`: exclusions, reservations,
then strategy dispatch. -/
def runPipeline {σ : Type} (R : RNGImpl σ) (cfg : SConfig) (sourceIDs : List Nat) :
    Except ShardError (List GoSlice) :=
  let filtered := applyExclusions sourceIDs cfg.excludeIDs
  match applyReservations filtered cfg.reservedIDs (resolveShardCount cfg) with
  | .error e => .error e
  | .ok res => applyStrategy R cfg filtered (some res)

/-- Projection of a pipeline error, for stating error facts decidably. -/
def resErrorOf {α : Type} : Except ShardError α → Option ShardError
  | .error e => some e
  | .ok _ => none

/-! ### Basic lemmas: slices, swaps, shuffles, sorting -/

open scoped List

theorem sElems_goAppendList (s : GoSlice) (xs : List Nat) :
    sElems (goAppendList s xs) = sElems s ++ xs := by
  cases xs <;> simp [goAppendList, sElems]

theorem goAppendList_isSome (s : GoSlice) (xs : List Nat) (h : s.isSome) :
    (goAppendList s xs).isSome := by
  cases xs <;> simp [goAppendList, h]

theorem length_bucketAppend (sh : List GoSlice) (i : Nat) (id : Nat) :
    (bucketAppend sh i id).length = sh.length := by
  simp [bucketAppend]

theorem getD_map_sElems (sh : List GoSlice) (i : Nat) :
    (sh.map sElems).getD i [] = sElems (sh.getD i none) := by
  simp only [List.getD_eq_getElem?_getD, List.getElem?_map]
  rcases sh[i]? with _ | b <;> simp [sElems]

/-- Setting bucket `i` to a rearrangement of its old content plus `w`
adds exactly `w` to the concatenation, up to permutation. -/
theorem flatten_set_perm (L : List (List Nat)) (i : Nat) (h : i < L.length)
    (v w : List Nat) (hv : v.Perm (L.getD i [] ++ w)) :
    (L.set i v).flatten.Perm (w ++ L.flatten) := by
  have hset : L.set i v = L.take i ++ v :: L.drop (i + 1) := by
    rw [List.set_eq_take_append_cons_drop, if_pos h]
  have hL : L = L.take i ++ L.getD i [] :: L.drop (i + 1) := by
    conv_lhs => rw [← List.take_append_drop i L]
    rw [List.drop_eq_getElem_cons h]
    rw [List.getD_eq_getElem _ _ h]
  calc (L.set i v).flatten
      = (L.take i).flatten ++ (v ++ (L.drop (i + 1)).flatten) := by
        rw [hset]; simp
    _ ~ (L.take i).flatten ++ ((L.getD i [] ++ w) ++ (L.drop (i + 1)).flatten) :=
        (hv.append_right _).append_left _
    _ ~ ((L.take i).flatten ++ L.getD i [] ++ w) ++ (L.drop (i + 1)).flatten := by
        simp [List.append_assoc]
    _ ~ (w ++ ((L.take i).flatten ++ L.getD i [])) ++ (L.drop (i + 1)).flatten :=
        (List.perm_append_comm).append_right _
    _ = w ++ ((L.take i).flatten ++ (L.getD i [] :: L.drop (i + 1)).flatten) := by
        simp [List.append_assoc]
    _ = w ++ L.flatten := by
        conv_rhs => rw [hL]
        simp

/-- `bucketAppend` at an in-range index adds the identifier to the
concatenation, up to permutation. -/
theorem joinElems_bucketAppend (sh : List GoSlice) (i : Nat) (id : Nat)
    (h : i < sh.length) :
    (joinElems (bucketAppend sh i id)).Perm (id :: joinElems sh) := by
  unfold joinElems bucketAppend
  rw [List.map_set]
  have := flatten_set_perm (sh.map sElems) i (by simpa using h)
    (sElems (goAppendList (sh.getD i none) [id])) [id] ?_
  · simpa using this
  · rw [sElems_goAppendList, getD_map_sElems]

theorem listSwap_length (xs : List Nat) (i j : Nat) :
    (listSwap xs i j).length = xs.length := by
  simp [listSwap]

theorem cons_perm_getD_set (t : List Nat) (x : Nat) (m : Nat) (h : m < t.length) :
    (x :: t).Perm (t.getD m 0 :: t.set m x) := by
  have hd : t = t.take m ++ t.getD m 0 :: t.drop (m + 1) := by
    conv_lhs => rw [← List.take_append_drop m t]
    rw [List.drop_eq_getElem_cons h]
    rw [List.getD_eq_getElem _ _ h]
  have hs : t.set m x = t.take m ++ x :: t.drop (m + 1) := by
    rw [List.set_eq_take_append_cons_drop, if_pos h]
  calc x :: t
      = x :: (t.take m ++ t.getD m 0 :: t.drop (m + 1)) := by rw [← hd]
    _ ~ x :: t.getD m 0 :: (t.take m ++ t.drop (m + 1)) :=
        (List.perm_middle).cons x
    _ ~ t.getD m 0 :: x :: (t.take m ++ t.drop (m + 1)) := List.Perm.swap _ _ _
    _ ~ t.getD m 0 :: (t.take m ++ x :: t.drop (m + 1)) :=
        (List.perm_middle.symm).cons _
    _ = t.getD m 0 :: t.set m x := by rw [hs]

theorem listSwap_comm (xs : List Nat) (i j : Nat) (h : i ≠ j) :
    listSwap xs i j = listSwap xs j i := by
  unfold listSwap
  rw [List.set_comm _ _ _ h]

theorem listSwap_perm : ∀ (xs : List Nat) (i j : Nat), i < xs.length → j < xs.length →
    (listSwap xs i j).Perm xs
  | [], i, j, hi, _ => by simp at hi
  | x :: t, 0, 0, _, _ => by
      simp [listSwap]
  | x :: t, 0, m + 1, _, hj => by
      have hm : m < t.length := by simpa using hj
      unfold listSwap
      simp only [List.getD_cons_succ, List.getD_cons_zero, List.set_cons_zero,
        List.set_cons_succ]
      exact (cons_perm_getD_set t x m hm).symm
  | x :: t, n + 1, 0, hi, hj => by
      rw [listSwap_comm _ _ _ (by omega)]
      have hn : n < t.length := by simpa using hi
      unfold listSwap
      simp only [List.getD_cons_succ, List.getD_cons_zero, List.set_cons_zero,
        List.set_cons_succ]
      exact (cons_perm_getD_set t x n hn).symm
  | x :: t, n + 1, m + 1, hi, hj => by
      have hn : n < t.length := by simpa using hi
      have hm : m < t.length := by simpa using hj
      unfold listSwap
      simp only [List.getD_cons_succ, List.set_cons_succ]
      exact (listSwap_perm t n m hn hm).cons x

theorem fyLoop_perm {σ : Type} (intn : σ → Nat → Nat × σ)
    (hint : ∀ r n, 0 < n → (intn r n).1 < n) :
    ∀ (i : Nat) (r : σ) (xs : List Nat), i < xs.length →
      (fyLoop intn r xs i).Perm xs
  | 0, r, xs, _ => by simp [fyLoop]
  | i + 1, r, xs, h => by
      unfold fyLoop
      have hj : (intn r (i + 2)).1 < i + 2 := hint r (i + 2) (by omega)
      have h1 : i + 1 < xs.length := h
      have hswap := listSwap_perm xs (i + 1) (intn r (i + 2)).1 h1 (by omega)
      have hlen : i < (listSwap xs (i + 1) (intn r (i + 2)).1).length := by
        rw [listSwap_length]; omega
      exact (fyLoop_perm intn hint i _ _ hlen).trans hswap

theorem shuffleIDs_perm {σ : Type} (R : RNGImpl σ) (hR : RNGOk R)
    (ids : List Nat) (seed : String) : (shuffleIDs R ids seed).Perm ids := by
  unfold shuffleIDs
  rcases h : ids with _ | ⟨x, t⟩
  · simp [fyLoop]
  · exact fyLoop_perm R.intn hR _ _ _ (by simp)

theorem sortIDsNumerically_perm (ids : List Nat) :
    (sortIDsNumerically ids).Perm ids := List.perm_insertionSort _ ids

theorem sortIDsNumerically_sorted (ids : List Nat) :
    List.Sorted (· ≤ ·) (sortIDsNumerically ids) :=
  List.sorted_insertionSort _ ids

theorem sortIDsNumerically_eq_of_perm (ids₁ ids₂ : List Nat) (h : ids₁.Perm ids₂) :
    sortIDsNumerically ids₁ = sortIDsNumerically ids₂ :=
  List.eq_of_perm_of_sorted
    ((sortIDsNumerically_perm ids₁).trans (h.trans (sortIDsNumerically_perm ids₂).symm))
    (sortIDsNumerically_sorted ids₁) (sortIDsNumerically_sorted ids₂)

theorem sortAndShuffleIfSeed_perm {σ : Type} (R : RNGImpl σ) (hR : RNGOk R)
    (ids : List Nat) (seed : String) :
    (sortAndShuffleIfSeed R ids seed).Perm ids := by
  unfold sortAndShuffleIfSeed
  split
  · exact List.Perm.refl ids
  · exact (shuffleIDs_perm R hR _ seed).trans (sortIDsNumerically_perm ids)

theorem sortAndShuffleIfSeed_eq_of_perm {σ : Type} (R : RNGImpl σ)
    (ids₁ ids₂ : List Nat) (seed : String) (hs : seed ≠ "") (h : ids₁.Perm ids₂) :
    sortAndShuffleIfSeed R ids₁ seed = sortAndShuffleIfSeed R ids₂ seed := by
  unfold sortAndShuffleIfSeed
  rw [if_neg hs, if_neg hs, sortIDsNumerically_eq_of_perm ids₁ ids₂ h]

/-! ### Bucket access lemmas -/

theorem goAppendList_assoc (s : GoSlice) (xs ys : List Nat) :
    goAppendList (goAppendList s xs) ys = goAppendList s (xs ++ ys) := by
  rcases xs with _ | ⟨x, xs⟩ <;> rcases ys with _ | ⟨y, ys⟩ <;>
    simp [goAppendList, sElems]

theorem getD_set_self (sh : List GoSlice) (i : Nat) (v : GoSlice) (h : i < sh.length) :
    (sh.set i v).getD i none = v := by
  simp [List.getD_eq_getElem?_getD, List.getElem?_set_self h]

theorem getD_set_ne (sh : List GoSlice) (i j : Nat) (v : GoSlice) (h : i ≠ j) :
    (sh.set i v).getD j none = sh.getD j none := by
  simp [List.getD_eq_getElem?_getD, List.getElem?_set_ne h]

theorem getD_bucketAppend_self (sh : List GoSlice) (i : Nat) (id : Nat)
    (h : i < sh.length) :
    (bucketAppend sh i id).getD i none = goAppendList (sh.getD i none) [id] :=
  getD_set_self sh i _ h

theorem getD_bucketAppend_ne (sh : List GoSlice) (i j : Nat) (id : Nat) (h : i ≠ j) :
    (bucketAppend sh i id).getD j none = sh.getD j none :=
  getD_set_ne sh i j _ h

/-! ### The rendezvous candidate scan -/

theorem selectLoop_append (w : Nat → Nat) (l1 l2 : List Nat) (acc : Nat × Nat) :
    selectLoop w (l1 ++ l2) acc = selectLoop w l2 (selectLoop w l1 acc) := by
  induction l1 generalizing acc with
  | nil => simp [selectLoop]
  | cons x t ih => simp [selectLoop, ih]

/-- Invariant of the left-to-right scan over `0 .. k-1` from `(0, 0)`:
the selected shard is in range, the recorded weight is its weight, no
candidate beats it, and every earlier candidate is strictly below it. -/
theorem selectLoop_range_spec (w : Nat → Nat) :
    ∀ (k : Nat), 1 ≤ k →
      (selectLoop w (List.range k) (0, 0)).2 < k ∧
      (selectLoop w (List.range k) (0, 0)).1 = w (selectLoop w (List.range k) (0, 0)).2 ∧
      (∀ s, s < k → w s ≤ (selectLoop w (List.range k) (0, 0)).1) ∧
      (∀ s, s < (selectLoop w (List.range k) (0, 0)).2 →
        w s < (selectLoop w (List.range k) (0, 0)).1) := by
  intro k
  induction k with
  | zero => omega
  | succ k ih =>
    intro _
    rcases Nat.eq_zero_or_pos k with hk | hk
    · subst hk
      by_cases h0 : 0 < w 0
      · have hsel : selectLoop w (List.range 1) (0, 0) = (w 0, 0) := by
          simp [selectLoop, List.range_succ, h0]
        rw [hsel]
        refine ⟨?_, ?_, ?_, ?_⟩
        · show (0 : Nat) < 1
          omega
        · show w 0 = w 0
          rfl
        · intro s hs
          interval_cases s
          exact le_refl _
        · intro s hs
          exact absurd hs (by omega)
      · have hsel : selectLoop w (List.range 1) (0, 0) = (0, 0) := by
          simp [selectLoop, List.range_succ, h0]
        rw [hsel]
        refine ⟨?_, ?_, ?_, ?_⟩
        · show (0 : Nat) < 1
          omega
        · show (0 : Nat) = w 0
          omega
        · intro s hs
          interval_cases s
          show w 0 ≤ 0
          omega
        · intro s hs
          exact absurd hs (by omega)
    · obtain ⟨h1, h2, h3, h4⟩ := ih hk
      rw [List.range_succ, selectLoop_append]
      have hstep : ∀ acc : Nat × Nat,
          selectLoop w [k] acc = if w k > acc.1 then (w k, k) else acc := fun _ => rfl
      rw [hstep]
      by_cases hw : w k > (selectLoop w (List.range k) (0, 0)).1
      · rw [if_pos hw]
        refine ⟨?_, ?_, ?_, ?_⟩
        · show k < k + 1
          omega
        · show w k = w k
          rfl
        · intro s hs
          show w s ≤ w k
          rcases Nat.lt_succ_iff_lt_or_eq.mp hs with h | h
          · exact le_of_lt (lt_of_le_of_lt (h3 s h) hw)
          · subst h
            exact le_refl _
        · intro s hs
          show w s < w k
          have hsk : s < k := hs
          exact lt_of_le_of_lt (h3 s hsk) hw
      · rw [if_neg hw]
        refine ⟨Nat.lt_succ_of_lt h1, h2, ?_, h4⟩
        intro s hs
        rcases Nat.lt_succ_iff_lt_or_eq.mp hs with h | h
        · exact h3 s h
        · subst h
          omega

/-- Adding candidate `k` to a scan over `0 .. k-1` changes the selection
only when the new candidate's weight strictly exceeds the incumbent's. -/
theorem selectLoop_range_succ (w : Nat → Nat) (k : Nat) (hk : 1 ≤ k) :
    (selectLoop w (List.range (k + 1)) (0, 0)).2 =
      if w k > w (selectLoop w (List.range k) (0, 0)).2 then k
      else (selectLoop w (List.range k) (0, 0)).2 := by
  obtain ⟨_, h2, _, _⟩ := selectLoop_range_spec w k hk
  rw [List.range_succ, selectLoop_append]
  have hstep : ∀ acc : Nat × Nat,
      selectLoop w [k] acc = if w k > acc.1 then (w k, k) else acc := fun _ => rfl
  rw [hstep, h2]
  split <;> rfl

theorem selectShard_lt (id : Nat) (seed : String) (k : Nat) (hk : 1 ≤ k) :
    selectShard id seed k < k :=
  (selectLoop_range_spec (fun s => rendezvousWeight id s seed) k hk).1

/-! ### Bucket contents of the distribution loops -/

theorem rendezvousGo_length (seed : String) (k : Nat) :
    ∀ (ids : List Nat) (sh : List GoSlice),
      (rendezvousGo seed k ids sh).length = sh.length
  | [], sh => rfl
  | id :: rest, sh => by
      rw [rendezvousGo, rendezvousGo_length seed k rest, length_bucketAppend]

theorem rendezvousGo_getD (seed : String) (k : Nat) :
    ∀ (ids : List Nat) (sh : List GoSlice) (j : Nat),
      (∀ id, id ∈ ids → selectShard id seed k < sh.length) →
      (rendezvousGo seed k ids sh).getD j none =
        goAppendList (sh.getD j none)
          (ids.filter (fun id => selectShard id seed k = j))
  | [], sh, j, _ => by simp [rendezvousGo, goAppendList]
  | id :: rest, sh, j, hsel => by
      rw [rendezvousGo]
      have hlen : ∀ x, x ∈ rest → selectShard x seed k < (bucketAppend sh (selectShard id seed k) id).length := by
        intro x hx
        rw [length_bucketAppend]
        exact hsel x (List.mem_cons_of_mem _ hx)
      rw [rendezvousGo_getD seed k rest _ j hlen]
      by_cases hj : selectShard id seed k = j
      · subst hj
        rw [getD_bucketAppend_self sh _ id (hsel id (List.mem_cons_self id rest))]
        rw [goAppendList_assoc]
        simp [List.filter_cons]
      · rw [getD_bucketAppend_ne sh _ j id hj]
        simp [List.filter_cons, hj]

theorem joinElems_rendezvousGo (seed : String) (k : Nat) :
    ∀ (ids : List Nat) (sh : List GoSlice),
      (∀ id, id ∈ ids → selectShard id seed k < sh.length) →
      (joinElems (rendezvousGo seed k ids sh)).Perm (ids ++ joinElems sh)
  | [], sh, _ => by simp [rendezvousGo]
  | id :: rest, sh, hsel => by
      rw [rendezvousGo]
      have hlen : ∀ x, x ∈ rest → selectShard x seed k < (bucketAppend sh (selectShard id seed k) id).length := by
        intro x hx
        rw [length_bucketAppend]
        exact hsel x (List.mem_cons_of_mem _ hx)
      have ih := joinElems_rendezvousGo seed k rest _ hlen
      have hb := joinElems_bucketAppend sh (selectShard id seed k) id
        (hsel id (List.mem_cons_self id rest))
      calc joinElems (rendezvousGo seed k rest (bucketAppend sh (selectShard id seed k) id))
          ~ rest ++ joinElems (bucketAppend sh (selectShard id seed k) id) := ih
        _ ~ rest ++ (id :: joinElems sh) := hb.append_left rest
        _ ~ id :: (rest ++ joinElems sh) := List.perm_middle
        _ = (id :: rest) ++ joinElems sh := rfl

theorem roundRobinGo_length (k : Nat) :
    ∀ (ids : List Nat) (i : Nat) (sh : List GoSlice),
      (roundRobinGo k ids i sh).length = sh.length
  | [], _, sh => rfl
  | id :: rest, i, sh => by
      rw [roundRobinGo, roundRobinGo_length k rest, length_bucketAppend]

theorem joinElems_roundRobinGo (k : Nat) (hk : 0 < k) :
    ∀ (ids : List Nat) (i : Nat) (sh : List GoSlice), sh.length = k →
      (joinElems (roundRobinGo k ids i sh)).Perm (ids ++ joinElems sh)
  | [], _, sh, _ => by simp [roundRobinGo]
  | id :: rest, i, sh, hlen => by
      rw [roundRobinGo]
      have hik : i % k < sh.length := by rw [hlen]; exact Nat.mod_lt i hk
      have ih := joinElems_roundRobinGo k hk rest (i + 1) (bucketAppend sh (i % k) id)
        (by rw [length_bucketAppend, hlen])
      have hb := joinElems_bucketAppend sh (i % k) id hik
      calc joinElems (roundRobinGo k rest (i + 1) (bucketAppend sh (i % k) id))
          ~ rest ++ joinElems (bucketAppend sh (i % k) id) := ih
        _ ~ rest ++ (id :: joinElems sh) := hb.append_left rest
        _ ~ id :: (rest ++ joinElems sh) := List.perm_middle
        _ = (id :: rest) ++ joinElems sh := rfl

/-! ### Reservation merge and final per-bucket sort -/

theorem joinElems_cons (b : GoSlice) (t : List GoSlice) :
    joinElems (b :: t) = sElems b ++ joinElems t := by
  simp [joinElems]

theorem joinElems_set_perm (sh : List GoSlice) (i : Nat) (v : GoSlice) (w : List Nat)
    (h : i < sh.length) (hv : (sElems v).Perm (sElems (sh.getD i none) ++ w)) :
    (joinElems (sh.set i v)).Perm (w ++ joinElems sh) := by
  unfold joinElems
  rw [List.map_set]
  have hmain := flatten_set_perm (sh.map sElems) i (by simpa using h) (sElems v) w ?_
  · simpa using hmain
  · rw [getD_map_sElems]
    exact hv

theorem mergeEntry_length (sh : List GoSlice) (e : String × List Nat) :
    (mergeEntry sh e).length = sh.length := by
  unfold mergeEntry
  split
  · simp
  · rfl

theorem mergeIdx_eq (e : String × List Nat) (i : Int)
    (hp : parseShardIdx e.1 = some i) : mergeIdx e = i := by
  unfold mergeIdx
  rw [hp]

theorem joinElems_mergeEntry (sh : List GoSlice) (e : String × List Nat)
    (hidx : ∃ i : Int, parseShardIdx e.1 = some i ∧ 0 ≤ i ∧ i.toNat < sh.length) :
    (joinElems (mergeEntry sh e)).Perm (e.2 ++ joinElems sh) := by
  obtain ⟨i, hp, hi0, hilen⟩ := hidx
  unfold mergeEntry
  rw [mergeIdx_eq e i hp]
  rw [if_pos ⟨hi0, hilen⟩]
  apply joinElems_set_perm sh i.toNat _ e.2 hilen
  rw [sElems_goAppendList]
  have : sElems (some e.2) = e.2 := rfl
  rw [this]
  exact List.perm_append_comm

theorem mem_getD_mergeEntry (sh : List GoSlice) (e : String × List Nat) (j : Nat)
    (x : Nat) (hx : x ∈ sElems (sh.getD j none)) :
    x ∈ sElems ((mergeEntry sh e).getD j none) := by
  unfold mergeEntry
  split
  · rename_i hcond
    by_cases hj : (mergeIdx e).toNat = j
    · rw [hj, getD_set_self _ _ _ (hj ▸ hcond.2), sElems_goAppendList]
      exact List.mem_append_right _ hx
    · rw [getD_set_ne _ _ _ _ hj]
      exact hx
  · exact hx

theorem foldl_mergeEntry_length (entries : List (String × List Nat)) :
    ∀ (sh : List GoSlice), (entries.foldl mergeEntry sh).length = sh.length := by
  induction entries with
  | nil => intro sh; rfl
  | cons e rest ih =>
      intro sh
      rw [List.foldl_cons, ih, mergeEntry_length]

/-- All identifiers of a reservation map, in entry order. -/
def allIDs (m : List (String × List Nat)) : List Nat := m.flatMap Prod.snd

theorem joinElems_foldl_mergeEntry (entries : List (String × List Nat)) :
    ∀ (sh : List GoSlice),
      (∀ e, e ∈ entries →
        ∃ i : Int, parseShardIdx e.1 = some i ∧ 0 ≤ i ∧ i.toNat < sh.length) →
      (joinElems (entries.foldl mergeEntry sh)).Perm (allIDs entries ++ joinElems sh) := by
  induction entries with
  | nil => intro sh _; simp [allIDs]
  | cons e rest ih =>
      intro sh hall
      rw [List.foldl_cons]
      have hx := hall e (List.mem_cons_self e rest)
      have hrest : ∀ e2, e2 ∈ rest →
          ∃ i : Int, parseShardIdx e2.1 = some i ∧ 0 ≤ i ∧ i.toNat < (mergeEntry sh e).length := by
        intro e2 he2
        rw [mergeEntry_length]
        exact hall e2 (List.mem_cons_of_mem _ he2)
      have h1 := ih (mergeEntry sh e) hrest
      have h2 := joinElems_mergeEntry sh e hx
      calc joinElems (rest.foldl mergeEntry (mergeEntry sh e))
          ~ allIDs rest ++ joinElems (mergeEntry sh e) := h1
        _ ~ allIDs rest ++ (e.2 ++ joinElems sh) := h2.append_left _
        _ = (allIDs rest ++ e.2) ++ joinElems sh := by simp [List.append_assoc]
        _ ~ (e.2 ++ allIDs rest) ++ joinElems sh :=
            (List.perm_append_comm).append_right _
        _ = allIDs (e :: rest) ++ joinElems sh := by simp [allIDs]

theorem mem_getD_foldl_mergeEntry (entries : List (String × List Nat)) :
    ∀ (sh : List GoSlice) (j : Nat) (x : Nat), x ∈ sElems (sh.getD j none) →
      x ∈ sElems ((entries.foldl mergeEntry sh).getD j none) := by
  induction entries with
  | nil => intro sh j x hx; exact hx
  | cons e rest ih =>
      intro sh j x hx
      rw [List.foldl_cons]
      exact ih _ j x (mem_getD_mergeEntry sh e j x hx)

theorem sElems_sortBucket_perm (b : GoSlice) :
    (sElems (sortBucket b)).Perm (sElems b) := by
  cases b with
  | none => exact List.Perm.refl _
  | some xs => exact sortIDsNumerically_perm xs

theorem getD_map_sortBucket (sh : List GoSlice) (j : Nat) :
    (sh.map sortBucket).getD j none = sortBucket (sh.getD j none) := by
  simp only [List.getD_eq_getElem?_getD, List.getElem?_map]
  rcases sh[j]? with _ | b <;> simp [sortBucket]

theorem joinElems_map_sortBucket : ∀ (sh : List GoSlice),
    (joinElems (sh.map sortBucket)).Perm (joinElems sh)
  | [] => List.Perm.refl _
  | b :: t => by
      rw [List.map_cons, joinElems_cons, joinElems_cons]
      exact (sElems_sortBucket_perm b).append (joinElems_map_sortBucket t)

/-! ### Properties of the reservation validation loop -/

theorem checkIDs_ok_lookup (name : String) :
    ∀ (l : List Nat) (seen seen2 : List (Nat × String)),
      checkIDs name l seen = .ok seen2 →
      ∀ x, (seen2.lookup x).isSome ↔ ((seen.lookup x).isSome ∨ x ∈ l)
  | [], seen, seen2, h, x => by
      simp only [checkIDs] at h
      cases h
      simp
  | id :: rest, seen, seen2, h, x => by
      rw [checkIDs] at h
      rcases hl : seen.lookup id with _ | prev
      · rw [hl] at h
        have ih := checkIDs_ok_lookup name rest ((id, name) :: seen) seen2 h x
        rw [ih]
        by_cases hx : x = id
        · subst hx
          simp
        · simp only [List.lookup_cons, List.mem_cons]
          have : (x == id) = false := by simpa using hx
          simp [this, hx]
      · rw [hl] at h
        simp at h

theorem checkIDs_ok_nodup (name : String) :
    ∀ (l : List Nat) (seen seen2 : List (Nat × String)),
      checkIDs name l seen = .ok seen2 →
      l.Nodup ∧ ∀ x, x ∈ l → seen.lookup x = none
  | [], seen, seen2, h => by
      simp
  | id :: rest, seen, seen2, h => by
      rw [checkIDs] at h
      rcases hl : seen.lookup id with _ | prev
      · rw [hl] at h
        obtain ⟨hnd, hmem⟩ := checkIDs_ok_nodup name rest ((id, name) :: seen) seen2 h
        refine ⟨List.nodup_cons.mpr ⟨?_, hnd⟩, ?_⟩
        · intro hid
          have := hmem id hid
          simp at this
        · intro x hx
          rcases List.mem_cons.mp hx with hx | hx
          · subst hx
            exact hl
          · have := hmem x hx
            rw [List.lookup_cons] at this
            by_cases hxi : x = id
            · subst hxi
              simp at this
            · have hb : (x == id) = false := by simpa using hxi
              rw [hb] at this
              simpa using this
      · rw [hl] at h
        simp at h

theorem checkIDs_ok_of (name : String) :
    ∀ (l : List Nat) (seen : List (Nat × String)),
      l.Nodup → (∀ x, x ∈ l → seen.lookup x = none) →
      ∃ seen2, checkIDs name l seen = .ok seen2
  | [], seen, _, _ => ⟨seen, rfl⟩
  | id :: rest, seen, hnd, hmem => by
      rw [checkIDs]
      rw [hmem id (List.mem_cons_self id rest)]
      apply checkIDs_ok_of name rest ((id, name) :: seen)
        (List.nodup_cons.mp hnd).2
      intro x hx
      rw [List.lookup_cons]
      have hxi : x ≠ id := by
        intro hcon
        subst hcon
        exact (List.nodup_cons.mp hnd).1 hx
      have hb : (x == id) = false := by simpa using hxi
      rw [hb]
      exact hmem x (List.mem_cons_of_mem _ hx)

theorem checkIDs_ok_provenance (name : String) :
    ∀ (l : List Nat) (seen seen2 : List (Nat × String)),
      checkIDs name l seen = .ok seen2 →
      ∀ x nm, seen2.lookup x = some nm →
        seen.lookup x = some nm ∨ (nm = name ∧ x ∈ l)
  | [], seen, seen2, h, x, nm => by
      simp only [checkIDs] at h
      cases h
      exact fun hx => Or.inl hx
  | id :: rest, seen, seen2, h, x, nm => by
      rw [checkIDs] at h
      rcases hl : seen.lookup id with _ | prev
      · rw [hl] at h
        intro hx
        rcases checkIDs_ok_provenance name rest ((id, name) :: seen) seen2 h x nm hx with
          hc | hc
        · rw [List.lookup_cons] at hc
          by_cases hxi : x = id
          · subst hxi
            simp at hc
            exact Or.inr ⟨hc.symm, List.mem_cons_self _ _⟩
          · have hb : (x == id) = false := by simpa using hxi
            rw [hb] at hc
            exact Or.inl hc
        · exact Or.inr ⟨hc.1, List.mem_cons_of_mem _ hc.2⟩
      · rw [hl] at h
        simp at h

theorem checkIDs_error_shape (name : String) :
    ∀ (l : List Nat) (seen : List (Nat × String)) (e : ShardError),
      checkIDs name l seen = .error e →
      ∃ id prev, e = .duplicateReservation id prev name ∧ id ∈ l ∧
        (seen.lookup id = some prev ∨ (prev = name ∧ id ∈ l))
  | [], seen, e, h => by
      simp [checkIDs] at h
  | id :: rest, seen, e, h => by
      rw [checkIDs] at h
      rcases hl : seen.lookup id with _ | prev
      · rw [hl] at h
        obtain ⟨id2, prev2, he, hmem, hsrc⟩ := checkIDs_error_shape name rest _ e h
        refine ⟨id2, prev2, he, List.mem_cons_of_mem _ hmem, ?_⟩
        rcases hsrc with hs | hs
        · rw [List.lookup_cons] at hs
          by_cases hxi : id2 = id
          · subst hxi
            simp at hs
            exact Or.inr ⟨hs.symm, List.mem_cons_self _ _⟩
          · have hb : (id2 == id) = false := by simpa using hxi
            rw [hb] at hs
            exact Or.inl hs
        · exact Or.inr ⟨hs.1, List.mem_cons_of_mem _ hs.2⟩
      · rw [hl] at h
        simp at h
        refine ⟨id, prev, h.symm, List.mem_cons_self _ _, Or.inl hl⟩

theorem applyResGo_ok (n : Int) :
    ∀ (entries acc : List (String × List Nat)) (counts : Int → Nat)
      (seen : List (Nat × String))
      (out : List (String × List Nat) × (Int → Nat) × List (Nat × String)),
      applyResGo n entries acc counts seen = .ok out →
      out.1 = acc ++ entries ∧
      (∀ x, (out.2.2.lookup x).isSome ↔ ((seen.lookup x).isSome ∨ x ∈ allIDs entries)) ∧
      (∀ e, e ∈ entries → ∃ i : Int, parseShardIdx e.1 = some i ∧ 0 ≤ i ∧ i < n) ∧
      (allIDs entries).Nodup ∧
      (∀ x, x ∈ allIDs entries → seen.lookup x = none)
  | [], acc, counts, seen, out, h => by
      simp only [applyResGo] at h
      cases h
      simp [allIDs]
  | (name, l) :: rest, acc, counts, seen, out, h => by
      rw [applyResGo] at h
      rcases hp : parseShardIdx name with _ | idx
      · rw [hp] at h
        simp at h
      · simp only [hp] at h
        by_cases hrange : idx < 0 ∨ n ≤ idx
        · rw [if_pos hrange] at h
          simp at h
        · rw [if_neg hrange] at h
          rcases hc : checkIDs name l seen with e | seen2
          · simp only [hc] at h
            simp at h
          · simp only [hc] at h
            obtain ⟨ho1, ho2, ho3, ho4, ho5⟩ := applyResGo_ok n rest _ _ seen2 out h
            have hchk1 := checkIDs_ok_lookup name l seen seen2 hc
            obtain ⟨hchknd, hchkmem⟩ := checkIDs_ok_nodup name l seen seen2 hc
            have hall : allIDs ((name, l) :: rest) = l ++ allIDs rest := by
              simp [allIDs]
            refine ⟨?_, ?_, ?_, ?_, ?_⟩
            · rw [ho1]
              simp
            · intro x
              rw [ho2 x, hchk1 x, hall]
              simp only [List.mem_append]
              tauto
            · intro e he
              rcases List.mem_cons.mp he with he | he
              · subst he
                push_neg at hrange
                exact ⟨idx, hp, hrange.1, hrange.2⟩
              · exact ho3 e he
            · rw [hall]
              rw [List.nodup_append]
              refine ⟨hchknd, ho4, ?_⟩
              intro x hx hx2
              have hn := ho5 x hx2
              have hs := (hchk1 x).mpr (Or.inr hx)
              rw [hn] at hs
              simp at hs
            · intro x hx
              rw [hall] at hx
              rcases List.mem_append.mp hx with hx | hx
              · exact hchkmem x hx
              · have hn := ho5 x hx
                have hns : ¬ (List.lookup x seen2).isSome := by
                  rw [hn]
                  simp
                rw [hchk1 x] at hns
                push_neg at hns
                exact Option.not_isSome_iff_eq_none.mp hns.1

theorem applyResGo_counts_invar (n : Int) :
    ∀ (entries acc : List (String × List Nat)) (counts : Int → Nat)
      (seen : List (Nat × String))
      (out : List (String × List Nat) × (Int → Nat) × List (Nat × String)),
      applyResGo n entries acc counts seen = .ok out →
      ∀ j : Int, (∀ e, e ∈ entries → parseShardIdx e.1 ≠ some j) → out.2.1 j = counts j
  | [], acc, counts, seen, out, h, j, _ => by
      simp only [applyResGo] at h
      cases h
      rfl
  | (name, l) :: rest, acc, counts, seen, out, h, j, hne => by
      rw [applyResGo] at h
      rcases hp : parseShardIdx name with _ | idx
      · rw [hp] at h
        simp at h
      · simp only [hp] at h
        by_cases hrange : idx < 0 ∨ n ≤ idx
        · rw [if_pos hrange] at h
          simp at h
        · rw [if_neg hrange] at h
          rcases hc : checkIDs name l seen with e | seen2
          · simp only [hc] at h
            simp at h
          · simp only [hc] at h
            have ih := applyResGo_counts_invar n rest _ _ seen2 out h j
              (fun e he => hne e (List.mem_cons_of_mem _ he))
            rw [ih]
            have hj : j ≠ idx := by
              intro hcon
              exact hne (name, l) (List.mem_cons_self _ _) (by rw [hp, hcon])
            simp [hj]

theorem applyResGo_counts (n : Int) :
    ∀ (entries acc : List (String × List Nat)) (counts : Int → Nat)
      (seen : List (Nat × String))
      (out : List (String × List Nat) × (Int → Nat) × List (Nat × String)),
      applyResGo n entries acc counts seen = .ok out →
      (entries.map (fun e => parseShardIdx e.1)).Nodup →
      ∀ e, e ∈ entries → ∀ i : Int, parseShardIdx e.1 = some i → out.2.1 i = e.2.length
  | [], acc, counts, seen, out, h, _, e, he, i, hei => by
      simp at he
  | (name, l) :: rest, acc, counts, seen, out, h, hnd, e, he, i, hei => by
      rw [applyResGo] at h
      rcases hp : parseShardIdx name with _ | idx
      · rw [hp] at h
        simp at h
      · simp only [hp] at h
        by_cases hrange : idx < 0 ∨ n ≤ idx
        · rw [if_pos hrange] at h
          simp at h
        · rw [if_neg hrange] at h
          rcases hc : checkIDs name l seen with e2 | seen2
          · simp only [hc] at h
            simp at h
          · simp only [hc] at h
            rcases List.mem_cons.mp he with he1 | he1
            · subst he1
              have hii : idx = i := by
                rw [hp] at hei
                exact Option.some.inj hei
              subst hii
              have hrest : ∀ e2, e2 ∈ rest → parseShardIdx e2.1 ≠ some idx := by
                intro e2 he2 hcon
                rw [List.map_cons, List.nodup_cons] at hnd
                apply hnd.1
                rw [hp, ← hcon]
                exact List.mem_map_of_mem _ he2
              have := applyResGo_counts_invar n rest _ _ seen2 out h idx hrest
              rw [this]
              simp
            · rw [List.map_cons, List.nodup_cons] at hnd
              exact applyResGo_counts n rest _ _ seen2 out h hnd.2 e he1 i hei

theorem applyResGo_ok_of (n : Int) :
    ∀ (entries acc : List (String × List Nat)) (counts : Int → Nat)
      (seen : List (Nat × String)),
      (∀ e, e ∈ entries → ∃ i : Int, parseShardIdx e.1 = some i ∧ 0 ≤ i ∧ i < n) →
      (allIDs entries).Nodup →
      (∀ x, x ∈ allIDs entries → seen.lookup x = none) →
      ∃ out, applyResGo n entries acc counts seen = .ok out
  | [], acc, counts, seen, _, _, _ => ⟨(acc, counts, seen), rfl⟩
  | (name, l) :: rest, acc, counts, seen, hin, hnd, hseen => by
      obtain ⟨idx, hp, h0, h1⟩ := hin (name, l) (List.mem_cons_self _ _)
      have hall : allIDs ((name, l) :: rest) = l ++ allIDs rest := by simp [allIDs]
      rw [hall, List.nodup_append] at hnd
      rw [applyResGo]
      simp only [hp]
      rw [if_neg (by omega)]
      obtain ⟨seen2, hc⟩ := checkIDs_ok_of name l seen hnd.1
        (fun x hx => hseen x (by rw [hall]; exact List.mem_append_left _ hx))
      rw [hc]
      apply applyResGo_ok_of n rest _ _ seen2
        (fun e he => hin e (List.mem_cons_of_mem _ he)) hnd.2.1
      intro x hx
      have hiff := checkIDs_ok_lookup name l seen seen2 hc x
      have hxl : x ∉ l := fun hxl => hnd.2.2 hxl hx
      have hxs : seen.lookup x = none :=
        hseen x (by rw [hall]; exact List.mem_append_right _ hx)
      have : ¬ (List.lookup x seen2).isSome := by
        rw [hiff, hxs]
        simp [hxl]
      exact Option.not_isSome_iff_eq_none.mp this

theorem applyResGo_dup_error (n : Int) :
    ∀ (entries prev acc : List (String × List Nat)) (counts : Int → Nat)
      (seen : List (Nat × String)) (id : Nat) (n1 n2 : String),
      applyResGo n entries acc counts seen = .error (.duplicateReservation id n1 n2) →
      (∀ x nm, seen.lookup x = some nm → ∃ l1, (nm, l1) ∈ prev ∧ x ∈ l1) →
      ∃ l1 l2, ((n1, l1) ∈ prev ++ entries ∧ id ∈ l1) ∧ ((n2, l2) ∈ entries ∧ id ∈ l2)
  | [], prev, acc, counts, seen, id, n1, n2, h, _ => by
      simp [applyResGo] at h
  | (name, l) :: rest, prev, acc, counts, seen, id, n1, n2, h, hprov => by
      rw [applyResGo] at h
      rcases hp : parseShardIdx name with _ | idx
      · rw [hp] at h
        simp at h
      · simp only [hp] at h
        by_cases hrange : idx < 0 ∨ n ≤ idx
        · rw [if_pos hrange] at h
          simp at h
        · rw [if_neg hrange] at h
          rcases hc : checkIDs name l seen with e2 | seen2
          · simp only [hc] at h
            have he2 : e2 = .duplicateReservation id n1 n2 := by
              cases h
              rfl
            subst he2
            obtain ⟨id2, prev2, heq, hmem, hsrc⟩ := checkIDs_error_shape name l seen _ hc
            rw [ShardError.duplicateReservation.injEq] at heq
            obtain ⟨hq1, hq2, hq3⟩ := heq
            rw [hq1, hq2, hq3]
            rcases hsrc with hs | hs
            · obtain ⟨l1, hl1, hxl1⟩ := hprov id2 prev2 hs
              exact ⟨l1, l, ⟨List.mem_append_left _ hl1, hxl1⟩,
                ⟨List.mem_cons_self _ _, hmem⟩⟩
            · refine ⟨l, l, ⟨?_, hmem⟩, ⟨List.mem_cons_self _ _, hmem⟩⟩
              rw [hs.1]
              exact List.mem_append_right _ (List.mem_cons_self _ _)
          · simp only [hc] at h
            have hprov2 : ∀ x nm, seen2.lookup x = some nm →
                ∃ l1, (nm, l1) ∈ prev ++ [(name, l)] ∧ x ∈ l1 := by
              intro x nm hx
              rcases checkIDs_ok_provenance name l seen seen2 hc x nm hx with hcp | hcp
              · obtain ⟨l1, hl1, hxl1⟩ := hprov x nm hcp
                exact ⟨l1, List.mem_append_left _ hl1, hxl1⟩
              · exact ⟨l, by
                  rw [hcp.1]
                  exact List.mem_append_right _ (List.mem_cons_self _ _), hcp.2⟩
            obtain ⟨l1, l2, ⟨ha, hb⟩, ⟨hc2, hd⟩⟩ :=
              applyResGo_dup_error n rest (prev ++ [(name, l)]) _ _ seen2 id n1 n2 h hprov2
            refine ⟨l1, l2, ⟨?_, hb⟩, ⟨List.mem_cons_of_mem _ hc2, hd⟩⟩
            rw [List.append_assoc] at ha
            simpa using ha

/-! ### Wrapper facts about `applyReservations` -/

theorem applyReservations_ok_shape (ids : List Nat) (rmap : List (String × List Nat))
    (n : Int) (r : ShardReservations) (h : applyReservations ids rmap n = .ok r) :
    r.idsByShard = rmap ∧
    r.unreservedIDs = ids.filter (fun id => !((allIDs rmap).contains id)) ∧
    (∀ e, e ∈ rmap → ∃ i : Int, parseShardIdx e.1 = some i ∧ 0 ≤ i ∧ i < n) ∧
    (allIDs rmap).Nodup := by
  unfold applyReservations at h
  by_cases hm : rmap = []
  · rw [if_pos hm] at h
    cases h
    subst hm
    refine ⟨rfl, ?_, by simp, by simp [allIDs]⟩
    show ids = ids.filter _
    symm
    rw [List.filter_eq_self]
    intro a _
    simp [allIDs]
  · rw [if_neg hm] at h
    rcases hg : applyResGo n rmap [] (fun _ => 0) [] with e | out
    · rw [hg] at h
      simp at h
    · rw [hg] at h
      obtain ⟨ho1, ho2, ho3, ho4, _⟩ := applyResGo_ok n rmap [] _ [] out hg
      have hmem : ∀ x, (out.2.2.lookup x).isSome ↔ x ∈ allIDs rmap := by
        intro x
        rw [ho2 x]
        simp
      rcases out with ⟨acc, counts, seen⟩
      simp only at h hmem
      cases h
      refine ⟨by simpa using ho1, ?_, ho3, ho4⟩
      show (if seen = [] then ids
        else ids.filter (fun id => !(seen.any (fun p => p.1 == id)))) = _
      by_cases hs : seen = []
      · rw [if_pos hs]
        symm
        rw [List.filter_eq_self]
        intro a _
        subst hs
        have := (hmem a).mpr
        simp only [List.lookup_nil, Option.isSome_none] at this
        have hnot : a ∉ allIDs rmap := by
          intro hcon
          simpa using this hcon
        simp [hnot]
      · rw [if_neg hs]
        apply List.filter_congr
        intro x _
        have h1 : (seen.any (fun p => p.1 == x)) = ((allIDs rmap).contains x) := by
          rw [Bool.eq_iff_iff]
          rw [List.any_eq_true]
          constructor
          · rintro ⟨p, hp, hpx⟩
            have : x ∈ allIDs rmap := by
              rw [← hmem x]
              rw [List.lookup_isSome_iff]
              exact ⟨p, hp, by simpa using (by simpa using hpx : p.1 = x).symm⟩
            simpa using this
          · intro hx
            have : (List.lookup x seen).isSome := (hmem x).mpr (by simpa using hx)
            rw [List.lookup_isSome_iff] at this
            obtain ⟨p, hp, hpx⟩ := this
            exact ⟨p, hp, by simpa using (by simpa using hpx : x = p.1).symm⟩
        rw [h1]

theorem applyReservations_counts (ids : List Nat) (rmap : List (String × List Nat))
    (n : Int) (r : ShardReservations) (h : applyReservations ids rmap n = .ok r)
    (hnd : (rmap.map (fun e => parseShardIdx e.1)).Nodup) :
    ∀ e, e ∈ rmap → ∀ i : Int, parseShardIdx e.1 = some i →
      r.countsByShard i = e.2.length := by
  unfold applyReservations at h
  by_cases hm : rmap = []
  · subst hm
    intro e he
    simp at he
  · rw [if_neg hm] at h
    rcases hg : applyResGo n rmap [] (fun _ => 0) [] with e | out
    · rw [hg] at h
      simp at h
    · rw [hg] at h
      have hcounts := applyResGo_counts n rmap [] (fun _ => 0) [] out hg hnd
      rcases out with ⟨acc, counts, seen⟩
      simp only at h hcounts
      cases h
      exact hcounts

theorem applyReservations_error_iff (ids : List Nat) (rmap : List (String × List Nat))
    (n : Int) (hparse : ∀ e, e ∈ rmap → (parseShardIdx e.1).isSome) :
    (∃ e, applyReservations ids rmap n = .error e) ↔
      ((∃ e, e ∈ rmap ∧ ∃ i : Int, parseShardIdx e.1 = some i ∧ (i < 0 ∨ n ≤ i)) ∨
        ¬ (allIDs rmap).Nodup) := by
  constructor
  · intro ⟨err, herr⟩
    by_contra hcon
    push_neg at hcon
    obtain ⟨hrange, hnd⟩ := hcon
    have hin : ∀ e, e ∈ rmap → ∃ i : Int, parseShardIdx e.1 = some i ∧ 0 ≤ i ∧ i < n := by
      intro e he
      obtain ⟨i, hi⟩ := Option.isSome_iff_exists.mp (hparse e he)
      exact ⟨i, hi, (hrange e he i hi).1, (hrange e he i hi).2⟩
    unfold applyReservations at herr
    by_cases hm : rmap = []
    · rw [if_pos hm] at herr
      simp at herr
    · rw [if_neg hm] at herr
      obtain ⟨out, hout⟩ := applyResGo_ok_of n rmap [] (fun _ => 0) [] hin
        (by simpa using hnd) (by simp)
      rw [hout] at herr
      simp at herr
  · intro hbad
    rcases hok : applyReservations ids rmap n with e | r
    · exact ⟨e, rfl⟩
    · exfalso
      obtain ⟨_, _, hin, hnd⟩ := applyReservations_ok_shape ids rmap n r hok
      rcases hbad with ⟨e, he, i, hi, hout⟩ | hndbad
      · obtain ⟨i2, hi2, h0, h1⟩ := hin e he
        rw [hi] at hi2
        have : i = i2 := Option.some.inj hi2
        omega
      · exact hndbad hnd

theorem applyReservations_dup_error (ids : List Nat) (rmap : List (String × List Nat))
    (n : Int) (id : Nat) (n1 n2 : String)
    (h : applyReservations ids rmap n = .error (.duplicateReservation id n1 n2)) :
    ∃ l1 l2, ((n1, l1) ∈ rmap ∧ id ∈ l1) ∧ ((n2, l2) ∈ rmap ∧ id ∈ l2) := by
  unfold applyReservations at h
  by_cases hm : rmap = []
  · rw [if_pos hm] at h
    simp at h
  · rw [if_neg hm] at h
    rcases hg : applyResGo n rmap [] (fun _ => 0) [] with e | out
    · rw [hg] at h
      have he : e = .duplicateReservation id n1 n2 := by
        cases h
        rfl
      subst he
      obtain ⟨l1, l2, ⟨ha, hb⟩, hc, hd⟩ :=
        applyResGo_dup_error n rmap [] [] (fun _ => 0) [] id n1 n2 hg (by simp)
      exact ⟨l1, l2, ⟨by simpa using ha, hb⟩, hc, hd⟩
    · rw [hg] at h
      rcases out with ⟨acc, counts, seen⟩
      simp at h

instance exceptDecEq {ε α : Type} [DecidableEq ε] [DecidableEq α] :
    DecidableEq (Except ε α) := fun a b =>
  match a, b with
  | .error e1, .error e2 =>
      if h : e1 = e2 then .isTrue (by rw [h])
      else .isFalse (by intro hc; cases hc; exact h rfl)
  | .error _, .ok _ => .isFalse (by intro hc; cases hc)
  | .ok _, .error _ => .isFalse (by intro hc; cases hc)
  | .ok a1, .ok a2 =>
      if h : a1 = a2 then .isTrue (by rw [h])
      else .isFalse (by intro hc; cases hc; exact h rfl)

/-! ### Bucket counts and materialization -/

theorem percLoop_length (dist : List Nat) (unresLen totalIDs : Nat)
    (rc : Nat → Nat) (n : Nat) :
    ∀ (ps : List Int) (i c : Nat) (sh : List GoSlice),
      ((percLoop dist unresLen totalIDs rc n ps i c sh).1).length = sh.length
  | [], _, _, sh => rfl
  | p :: rest, i, c, sh => by
      rw [percLoop]
      split
      · rw [percLoop_length dist unresLen totalIDs rc n rest]
        simp
      · exact percLoop_length dist unresLen totalIDs rc n rest (i + 1) c sh

theorem sizeLoop_length (dist : List Nat) (unresLen : Nat) (rc : Nat → Nat) :
    ∀ (szs : List Int) (i c : Nat) (sh : List GoSlice),
      ((sizeLoop dist unresLen rc szs i c sh).1).length = sh.length
  | [], _, _, sh => rfl
  | p :: rest, i, c, sh => by
      rw [sizeLoop]
      split
      · rw [sizeLoop_length dist unresLen rc rest]
        simp
      · rw [sizeLoop_length dist unresLen rc rest]
        simp

theorem mergeReservations_length (sh : List GoSlice) (res : Option ShardReservations) :
    (mergeReservations sh res).length = sh.length := by
  cases res with
  | none => rfl
  | some r => exact foldl_mergeEntry_length r.idsByShard sh

theorem shardByRoundRobin_length {σ : Type} (R : RNGImpl σ) (ids : List Nat)
    (shardCount : Int) (seed : String) (res : Option ShardReservations) :
    (shardByRoundRobin R ids shardCount seed res).length = effShardCount shardCount := by
  unfold shardByRoundRobin
  rw [List.length_map, mergeReservations_length, roundRobinGo_length]
  simp

theorem shardByRendezvous_length (ids : List Nat) (shardCount : Int) (seed : String)
    (res : Option ShardReservations) :
    (shardByRendezvous ids shardCount seed res).length = effShardCount shardCount := by
  unfold shardByRendezvous
  rw [List.length_map, mergeReservations_length, rendezvousGo_length]
  simp

theorem shardByPercentage_length {σ : Type} (R : RNGImpl σ) (ids : List Nat)
    (percentages : List Int) (seed : String) (res : Option ShardReservations) :
    (shardByPercentage R ids percentages seed res).length = percentages.length := by
  simp only [shardByPercentage]
  split
  · simp
  · rw [List.length_map, mergeReservations_length, percLoop_length]
    simp

theorem shardBySize_length {σ : Type} (R : RNGImpl σ) (ids : List Nat)
    (sizes : List Int) (seed : String) (res : Option ShardReservations) :
    (shardBySize R ids sizes seed res).length = sizes.length := by
  simp only [shardBySize]
  split
  · simp
  · rw [List.length_map, mergeReservations_length, sizeLoop_length]
    simp

theorem rendezvousGo_isSome (seed : String) (k : Nat) :
    ∀ (ids : List Nat) (sh : List GoSlice),
      (∀ b, b ∈ sh → b.isSome) →
      ∀ b, b ∈ rendezvousGo seed k ids sh → b.isSome
  | [], sh, hsh, b, hb => hsh b hb
  | id :: rest, sh, hsh, b, hb => by
      rw [rendezvousGo] at hb
      refine rendezvousGo_isSome seed k rest _ ?_ b hb
      intro b2 hb2
      rcases List.mem_or_eq_of_mem_set hb2 with hb2 | hb2
      · exact hsh b2 hb2
      · subst hb2
        simp [goAppendList]

theorem mergeEntry_isSome (sh : List GoSlice) (e : String × List Nat)
    (hsh : ∀ b, b ∈ sh → b.isSome) :
    ∀ b, b ∈ mergeEntry sh e → b.isSome := by
  intro b hb
  unfold mergeEntry at hb
  split at hb
  · rcases List.mem_or_eq_of_mem_set hb with hb | hb
    · exact hsh b hb
    · subst hb
      exact goAppendList_isSome _ _ (by simp)
  · exact hsh b hb

theorem foldl_mergeEntry_isSome :
    ∀ (entries : List (String × List Nat)) (sh : List GoSlice),
      (∀ b, b ∈ sh → b.isSome) →
      ∀ b, b ∈ entries.foldl mergeEntry sh → b.isSome
  | [], sh, hsh, b, hb => hsh b hb
  | e :: rest, sh, hsh, b, hb => by
      rw [List.foldl_cons] at hb
      exact foldl_mergeEntry_isSome rest _ (mergeEntry_isSome sh e hsh) b hb

theorem mergeReservations_isSome (res : Option ShardReservations)
    (sh : List GoSlice) (hsh : ∀ b, b ∈ sh → b.isSome) :
    ∀ b, b ∈ mergeReservations sh res → b.isSome := by
  cases res with
  | none => exact hsh
  | some r => exact foldl_mergeEntry_isSome r.idsByShard sh hsh

theorem shardByRendezvous_isSome (ids : List Nat) (shardCount : Int) (seed : String)
    (res : Option ShardReservations) :
    ∀ b, b ∈ shardByRendezvous ids shardCount seed res → b.isSome := by
  intro b hb
  unfold shardByRendezvous at hb
  obtain ⟨a, ha, rfl⟩ := List.mem_map.mp hb
  have hsome : a.isSome := by
    refine mergeReservations_isSome res _ ?_ a ha
    refine rendezvousGo_isSome seed _ _ _ ?_
    intro b2 hb2
    have hrep := List.eq_of_mem_replicate hb2
    subst hrep
    simp
  rcases a with _ | xs
  · simp at hsome
  · simp [sortBucket]

/-! ### Claim theorems (part 1) -/

set_option maxRecDepth 10000

/-- C1, counterexample: with the upstream-valid configuration
`strategy = "size"`, `shard_sizes = [1]` (no trailing `-1`), no seed, no
exclusions and no reservations, the pool `[0, 1]` produces the single
bucket `[0]`: identifier `1` is dropped, so the union of the buckets
plus the (empty) excluded set is not a permutation of the pool, refuting
the claimed completeness for every strategy. -/
theorem c1_counterexample :
    runPipeline trivialRNG ⟨"size", 0, [], [1], "", [], []⟩ [0, 1] =
      Except.ok [some [0]] ∧
    ¬ (joinElems [some [0]]).Perm [0, 1] := by
  constructor
  · decide
  · decide

/-- C3, evaluation at the failing input: pool `["1"]` with identifier `1`
reserved for `shard_0` under the percentage strategy `[100]`.  The
distributable pool is empty, so `shardByPercentage` returns its buckets
before merging reservations: the output bucket `shard_0` is nil and the
reserved identifier `1` appears in no bucket, although the claim (and the
repository's own documentation) requires it to be pinned to `shard_0`. -/
theorem c3_reservation_dropped_eval :
    runPipeline trivialRNG ⟨"percentage", 0, [100], [], "", [], [("shard_0", [1])]⟩ [1] =
      Except.ok [none] ∧
    ¬ (1 ∈ joinElems [none]) := by
  constructor
  · decide
  · decide

/-- C8, evaluation at the failing input: identifier `2` appears both in
`exclude_ids` and in the reservation list of `shard_0` (the validated
precondition is violated).  The engine does not crash, and `2` is indeed
removed from the distributable pool — but `applyReservations` keeps the
raw reservation list, so the merge step puts the excluded identifier `2`
into output bucket `shard_0`, contradicting the claim that it is absent
from the reservation output and from every bucket. -/
theorem c8_exclusion_overlap_eval :
    runPipeline trivialRNG ⟨"round-robin", 1, [], [], "", [2], [("shard_0", [2])]⟩ [1, 2] =
      Except.ok [some [1, 2]] ∧
    (2 ∈ joinElems [some [1, 2]]) ∧
    ((applyReservations (applyExclusions [1, 2] [2]) [("shard_0", [2])] 1).toOption.map
      (fun r => r.idsByShard)) = some [("shard_0", [2])] := by
  refine ⟨by decide, by decide, by decide⟩

/-- C9, counterexample: the reservation map with the single in-range key
`shard_0` whose list contains identifier `5` twice.  No identifier
appears in more than one shard's list, and no key is out of range, yet
`applyReservations` returns a duplicate-reservation error (naming the
same shard twice), refuting the claimed `if and only if`. -/
theorem c9_counterexample :
    resErrorOf (applyReservations [5] [("shard_0", [5, 5])] 1) =
      some (.duplicateReservation 5 "shard_0" "shard_0") ∧
    parseShardIdx "shard_0" = some 0 ∧
    ¬ ((0 : Int) < 0 ∨ (1 : Int) ≤ 0) := by
  refine ⟨by decide, by decide, by decide⟩

/-- C10, counterexample: round-robin over an empty identifier list with
`shardCount = 1` returns a bucket that is a nil slice (`none`), not a
materialized empty list, refuting the claim that no strategy ever
returns a nil bucket. -/
theorem c10_counterexample :
    shardByRoundRobin trivialRNG [] 1 "" none = [none] := by
  decide

/-- C10 (amended): every strategy returns exactly the effective shard
count of buckets (`shardCount` clamped to at least 1 for round-robin and
rendezvous, the parameter-list length for percentage and size), and the
rendezvous strategy materializes every bucket; the other three
strategies may return nil buckets, as the counterexample shows. -/
theorem c10_amended_bucket_counts {σ : Type} (R : RNGImpl σ) (ids : List Nat)
    (shardCount : Int) (seed : String) (res : Option ShardReservations)
    (percentages sizes : List Int) :
    (shardByRoundRobin R ids shardCount seed res).length = effShardCount shardCount ∧
    (shardByRendezvous ids shardCount seed res).length = effShardCount shardCount ∧
    (shardByPercentage R ids percentages seed res).length = percentages.length ∧
    (shardBySize R ids sizes seed res).length = sizes.length ∧
    (∀ b, b ∈ shardByRendezvous ids shardCount seed res → b.isSome) :=
  ⟨shardByRoundRobin_length R ids shardCount seed res,
   shardByRendezvous_length ids shardCount seed res,
   shardByPercentage_length R ids percentages seed res,
   shardBySize_length R ids sizes seed res,
   shardByRendezvous_isSome ids shardCount seed res⟩

/-! ### Claim theorems: rendezvous -/

theorem effShardCount_of_pos (shardCount : Int) (h : 1 ≤ shardCount) :
    effShardCount shardCount = shardCount.toNat := by
  unfold effShardCount
  rw [if_neg (by omega)]

theorem mem_getD_mergeReservations (sh : List GoSlice) (res : Option ShardReservations)
    (j : Nat) (x : Nat) (hx : x ∈ sElems (sh.getD j none)) :
    x ∈ sElems ((mergeReservations sh res).getD j none) := by
  cases res with
  | none => exact hx
  | some r => exact mem_getD_foldl_mergeEntry _ sh j x hx

/-- C4: `shardByRendezvous` assigns every identifier of the distributable
pool to the shard index whose weight — the first 8 bytes of the SHA-256
digest of the string `"<id>:shard_<s>:<seed>"`, read as a big-endian
unsigned 64-bit integer — is highest; on equal weights the
earliest-found maximum of the left-to-right scan over `s = 0 ..
shardCount-1` is kept (the best candidate is replaced only on strict
greater-than), and the seed string is part of the hash input even when
it is empty (the formula below applies verbatim to `seed = ""`). -/
theorem c4_rendezvous_argmax (ids : List Nat) (shardCount : Int) (seed : String)
    (res : Option ShardReservations) (id : Nat)
    (hid : id ∈ unreservedPool ids res) (hk : 1 ≤ shardCount) :
    selectShard id seed shardCount.toNat < shardCount.toNat ∧
    (∀ s, s < shardCount.toNat →
      sha256Uint64BE (toString id ++ ":shard_" ++ toString s ++ ":" ++ seed) ≤
      sha256Uint64BE (toString id ++ ":shard_" ++
        toString (selectShard id seed shardCount.toNat) ++ ":" ++ seed)) ∧
    (∀ s, s < selectShard id seed shardCount.toNat →
      sha256Uint64BE (toString id ++ ":shard_" ++ toString s ++ ":" ++ seed) <
      sha256Uint64BE (toString id ++ ":shard_" ++
        toString (selectShard id seed shardCount.toNat) ++ ":" ++ seed)) ∧
    id ∈ sElems ((shardByRendezvous ids shardCount seed res).getD
      (selectShard id seed shardCount.toNat) none) := by
  have hk1 : 1 ≤ shardCount.toNat := by omega
  obtain ⟨h1, h2, h3, h4⟩ :=
    selectLoop_range_spec (fun s => rendezvousWeight id s seed) shardCount.toNat hk1
  have hword : ∀ s : Nat, rendezvousWeight id s seed =
      sha256Uint64BE (toString id ++ ":shard_" ++ toString s ++ ":" ++ seed) := fun _ => rfl
  have hsel : selectShard id seed shardCount.toNat =
      (selectLoop (fun s => rendezvousWeight id s seed)
        (List.range shardCount.toNat) (0, 0)).2 := rfl
  refine ⟨by rw [hsel]; exact h1, ?_, ?_, ?_⟩
  · intro s hs
    rw [← hword, ← hword, hsel, ← h2]
    exact h3 s hs
  · intro s hs
    rw [← hword, ← hword, hsel, ← h2]
    exact h4 s (by rw [hsel] at hs; exact hs)
  · simp only [shardByRendezvous]
    rw [effShardCount_of_pos shardCount hk]
    rw [getD_map_sortBucket]
    rw [(sElems_sortBucket_perm _).mem_iff]
    apply mem_getD_mergeReservations
    have hselall : ∀ id2, id2 ∈ unreservedPool ids res →
        selectShard id2 seed shardCount.toNat <
          (List.replicate shardCount.toNat (some ([] : List Nat) : GoSlice)).length := by
      intro id2 _
      rw [List.length_replicate]
      exact selectShard_lt id2 seed _ hk1
    rw [rendezvousGo_getD seed _ _ _ _ hselall]
    have hrep : (List.replicate shardCount.toNat (some ([] : List Nat) : GoSlice)).getD
        (selectShard id seed shardCount.toNat) none = some [] := by
      simp only [List.getD_eq_getElem?_getD, List.getElem?_replicate]
      rw [if_pos (by rw [hsel]; exact h1)]
      rfl
    rw [hrep, sElems_goAppendList]
    refine List.mem_append_right _ ?_
    rw [List.mem_filter]
    exact ⟨hid, by simp⟩

/-- Witness for C4 at the concrete input `id = 1`, pool `[1]`,
`shardCount = 2`, empty seed, no reservations. -/
theorem c4_rendezvous_argmax_witness :
    (1 : Nat) ∈ unreservedPool [1] none ∧ (1 : Int) ≤ 2 ∧
    (selectShard 1 "" (2 : Int).toNat < (2 : Int).toNat ∧
    (∀ s, s < (2 : Int).toNat →
      sha256Uint64BE (toString (1 : Nat) ++ ":shard_" ++ toString s ++ ":" ++ "") ≤
      sha256Uint64BE (toString (1 : Nat) ++ ":shard_" ++
        toString (selectShard 1 "" (2 : Int).toNat) ++ ":" ++ "")) ∧
    (∀ s, s < selectShard 1 "" (2 : Int).toNat →
      sha256Uint64BE (toString (1 : Nat) ++ ":shard_" ++ toString s ++ ":" ++ "") <
      sha256Uint64BE (toString (1 : Nat) ++ ":shard_" ++
        toString (selectShard 1 "" (2 : Int).toNat) ++ ":" ++ "")) ∧
    1 ∈ sElems ((shardByRendezvous [1] 2 "" none).getD
      (selectShard 1 "" (2 : Int).toNat) none)) :=
  ⟨by decide, by decide, c4_rendezvous_argmax [1] 2 "" none 1 (by decide) (by decide)⟩

/-- C5: for a fixed identifier and seed, growing the shard count from `N`
to `N + 1` changes the rendezvous assignment only if the weight of the
new shard index `N` strictly exceeds the weight of the previously
winning shard, in which case the identifier moves to shard `N`; in every
other case the assignment is unchanged. -/
theorem c5_minimal_disruption (id : Nat) (seed : String) (N : Nat) (hN : 1 ≤ N) :
    (selectShard id seed (N + 1) =
      if rendezvousWeight id N seed > rendezvousWeight id (selectShard id seed N) seed
      then N else selectShard id seed N) ∧
    (selectShard id seed (N + 1) ≠ selectShard id seed N →
      rendezvousWeight id N seed > rendezvousWeight id (selectShard id seed N) seed ∧
      selectShard id seed (N + 1) = N) := by
  have h := selectLoop_range_succ (fun s => rendezvousWeight id s seed) N hN
  have hmain : selectShard id seed (N + 1) =
      if rendezvousWeight id N seed > rendezvousWeight id (selectShard id seed N) seed
      then N else selectShard id seed N := h
  refine ⟨hmain, ?_⟩
  intro hne
  by_cases hc : rendezvousWeight id N seed >
      rendezvousWeight id (selectShard id seed N) seed
  · rw [hmain, if_pos hc]
    exact ⟨hc, rfl⟩
  · rw [hmain, if_neg hc] at hne
    exact absurd rfl hne

/-- Witness for C5 at the concrete input `id = 0`, empty seed, `N = 1`. -/
theorem c5_minimal_disruption_witness :
    1 ≤ 1 ∧
    ((selectShard 0 "" (1 + 1) =
      if rendezvousWeight 0 1 "" > rendezvousWeight 0 (selectShard 0 "" 1) ""
      then 1 else selectShard 0 "" 1) ∧
    (selectShard 0 "" (1 + 1) ≠ selectShard 0 "" 1 →
      rendezvousWeight 0 1 "" > rendezvousWeight 0 (selectShard 0 "" 1) "" ∧
      selectShard 0 "" (1 + 1) = 1)) :=
  ⟨by decide, c5_minimal_disruption 0 "" 1 (by decide)⟩

/-! ### Order-independence machinery -/

theorem effShardCount_pos (shardCount : Int) : 0 < effShardCount shardCount := by
  unfold effShardCount
  split
  · omega
  · omega

theorem applyExclusions_perm (ids1 ids2 excl : List Nat) (h : ids1.Perm ids2) :
    (applyExclusions ids1 excl).Perm (applyExclusions ids2 excl) := by
  unfold applyExclusions
  split
  · exact h
  · exact h.filter _

theorem goSliceList_ext (sh1 sh2 : List GoSlice) (hlen : sh1.length = sh2.length)
    (h : ∀ j, j < sh1.length → sh1.getD j none = sh2.getD j none) : sh1 = sh2 := by
  apply List.ext_getElem hlen
  intro j h1 h2
  have hj := h j h1
  rw [List.getD_eq_getElem _ _ h1, List.getD_eq_getElem _ _ h2] at hj
  exact hj

theorem sElems_goAppend_someNil (xs : List Nat) :
    sElems (goAppendList (some []) xs) = xs := by
  rw [sElems_goAppendList]
  rfl

theorem sortBucket_eq_of_perm (b1 b2 : GoSlice)
    (hperm : (sElems b1).Perm (sElems b2)) (hsome : b1.isSome ↔ b2.isSome) :
    sortBucket b1 = sortBucket b2 := by
  cases b1 with
  | none =>
      cases b2 with
      | none => rfl
      | some xs2 => simp at hsome
  | some xs1 =>
      cases b2 with
      | none => simp at hsome
      | some xs2 =>
          show some (sortIDsNumerically xs1) = some (sortIDsNumerically xs2)
          rw [sortIDsNumerically_eq_of_perm xs1 xs2 hperm]

theorem getD_mergeEntry_rel (e : String × List Nat) (sh1 sh2 : List GoSlice) (j : Nat)
    (hlen : sh1.length = sh2.length)
    (hperm : (sElems (sh1.getD j none)).Perm (sElems (sh2.getD j none)))
    (hsome : (sh1.getD j none).isSome ↔ (sh2.getD j none).isSome) :
    (sElems ((mergeEntry sh1 e).getD j none)).Perm
      (sElems ((mergeEntry sh2 e).getD j none)) ∧
    (((mergeEntry sh1 e).getD j none).isSome ↔ ((mergeEntry sh2 e).getD j none).isSome) := by
  unfold mergeEntry
  by_cases hcond : 0 ≤ mergeIdx e ∧ (mergeIdx e).toNat < sh1.length
  · rw [if_pos hcond, if_pos (by rw [← hlen]; exact hcond)]
    by_cases hj : (mergeIdx e).toNat = j
    · rw [hj, getD_set_self _ _ _ (hj ▸ hcond.2),
        getD_set_self _ _ _ (hj ▸ hlen ▸ hcond.2)]
      constructor
      · rw [sElems_goAppendList, sElems_goAppendList]
        exact hperm.append_left _
      · constructor <;> intro <;> exact goAppendList_isSome _ _ (by simp)
    · rw [getD_set_ne _ _ _ _ hj, getD_set_ne _ _ _ _ hj]
      exact ⟨hperm, hsome⟩
  · rw [if_neg hcond, if_neg (by rw [← hlen]; exact hcond)]
    exact ⟨hperm, hsome⟩

theorem getD_foldl_mergeEntry_rel :
    ∀ (entries : List (String × List Nat)) (sh1 sh2 : List GoSlice) (j : Nat),
      sh1.length = sh2.length →
      (sElems (sh1.getD j none)).Perm (sElems (sh2.getD j none)) →
      ((sh1.getD j none).isSome ↔ (sh2.getD j none).isSome) →
      (sElems ((entries.foldl mergeEntry sh1).getD j none)).Perm
        (sElems ((entries.foldl mergeEntry sh2).getD j none)) ∧
      (((entries.foldl mergeEntry sh1).getD j none).isSome ↔
        ((entries.foldl mergeEntry sh2).getD j none).isSome)
  | [], sh1, sh2, j, _, hperm, hsome => ⟨hperm, hsome⟩
  | e :: rest, sh1, sh2, j, hlen, hperm, hsome => by
      rw [List.foldl_cons, List.foldl_cons]
      obtain ⟨hp, hs⟩ := getD_mergeEntry_rel e sh1 sh2 j hlen hperm hsome
      exact getD_foldl_mergeEntry_rel rest _ _ j
        (by rw [mergeEntry_length, mergeEntry_length, hlen]) hp hs

theorem shardByRoundRobin_eq {σ : Type} (R : RNGImpl σ) (ids1 ids2 : List Nat)
    (shardCount : Int) (seed : String) (acc : List (String × List Nat))
    (counts : Int → Nat) (u1 u2 : List Nat) (hperm : u1.Perm u2) (hseed : seed ≠ "") :
    shardByRoundRobin R ids1 shardCount seed (some ⟨acc, counts, u1⟩) =
    shardByRoundRobin R ids2 shardCount seed (some ⟨acc, counts, u2⟩) := by
  simp only [shardByRoundRobin]
  rw [show unreservedPool ids1 (some ⟨acc, counts, u1⟩) = u1 from rfl,
    show unreservedPool ids2 (some ⟨acc, counts, u2⟩) = u2 from rfl,
    sortAndShuffleIfSeed_eq_of_perm R u1 u2 seed hseed hperm]
  rfl

theorem shardByPercentage_eq {σ : Type} (R : RNGImpl σ) (ids1 ids2 : List Nat)
    (percentages : List Int) (seed : String) (acc : List (String × List Nat))
    (counts : Int → Nat) (u1 u2 : List Nat) (hperm : u1.Perm u2)
    (hlen : ids1.length = ids2.length) (hseed : seed ≠ "") :
    shardByPercentage R ids1 percentages seed (some ⟨acc, counts, u1⟩) =
    shardByPercentage R ids2 percentages seed (some ⟨acc, counts, u2⟩) := by
  simp only [shardByPercentage]
  rw [show unreservedPool ids1 (some ⟨acc, counts, u1⟩) = u1 from rfl,
    show unreservedPool ids2 (some ⟨acc, counts, u2⟩) = u2 from rfl,
    hperm.length_eq, hlen,
    sortAndShuffleIfSeed_eq_of_perm R u1 u2 seed hseed hperm]
  rfl

theorem shardBySize_eq {σ : Type} (R : RNGImpl σ) (ids1 ids2 : List Nat)
    (sizes : List Int) (seed : String) (acc : List (String × List Nat))
    (counts : Int → Nat) (u1 u2 : List Nat) (hperm : u1.Perm u2) (hseed : seed ≠ "") :
    shardBySize R ids1 sizes seed (some ⟨acc, counts, u1⟩) =
    shardBySize R ids2 sizes seed (some ⟨acc, counts, u2⟩) := by
  simp only [shardBySize]
  rw [show unreservedPool ids1 (some ⟨acc, counts, u1⟩) = u1 from rfl,
    show unreservedPool ids2 (some ⟨acc, counts, u2⟩) = u2 from rfl,
    hperm.length_eq,
    sortAndShuffleIfSeed_eq_of_perm R u1 u2 seed hseed hperm]
  rfl

theorem shardByRendezvous_eq (ids1 ids2 : List Nat) (shardCount : Int) (seed : String)
    (acc : List (String × List Nat)) (counts : Int → Nat) (u1 u2 : List Nat)
    (hperm : u1.Perm u2) :
    shardByRendezvous ids1 shardCount seed (some ⟨acc, counts, u1⟩) =
    shardByRendezvous ids2 shardCount seed (some ⟨acc, counts, u2⟩) := by
  simp only [shardByRendezvous]
  rw [show unreservedPool ids1 (some ⟨acc, counts, u1⟩) = u1 from rfl,
    show unreservedPool ids2 (some ⟨acc, counts, u2⟩) = u2 from rfl]
  have hk := effShardCount_pos shardCount
  set k := effShardCount shardCount with hkdef
  have hsel : ∀ (u : List Nat) (id : Nat), id ∈ u →
      selectShard id seed k < (List.replicate k (some ([] : List Nat) : GoSlice)).length := by
    intro u id _
    rw [List.length_replicate]
    exact selectShard_lt id seed k hk
  have hrep : ∀ j, j < k →
      (List.replicate k (some ([] : List Nat) : GoSlice)).getD j none = some [] := by
    intro j hj
    simp only [List.getD_eq_getElem?_getD, List.getElem?_replicate]
    rw [if_pos hj]
    rfl
  apply goSliceList_ext
  · rw [List.length_map, List.length_map, mergeReservations_length,
      mergeReservations_length, rendezvousGo_length, rendezvousGo_length]
  · intro j hj
    rw [List.length_map, mergeReservations_length, rendezvousGo_length,
      List.length_replicate] at hj
    rw [getD_map_sortBucket, getD_map_sortBucket]
    apply sortBucket_eq_of_perm
    all_goals
      have hrel := getD_foldl_mergeEntry_rel acc
        (rendezvousGo seed k u1 (List.replicate k (some [])))
        (rendezvousGo seed k u2 (List.replicate k (some []))) j
        (by rw [rendezvousGo_length, rendezvousGo_length])
        (by
          rw [rendezvousGo_getD seed k u1 _ j (hsel u1),
            rendezvousGo_getD seed k u2 _ j (hsel u2), hrep j hj,
            sElems_goAppend_someNil, sElems_goAppend_someNil]
          exact hperm.filter _)
        (by
          rw [rendezvousGo_getD seed k u1 _ j (hsel u1),
            rendezvousGo_getD seed k u2 _ j (hsel u2), hrep j hj]
          constructor <;> intro <;> exact goAppendList_isSome _ _ (by simp))
    · exact hrel.1
    · exact hrel.2

theorem applyStrategy_eq {σ : Type} (R : RNGImpl σ) (cfg : SConfig) (ids1 ids2 : List Nat)
    (acc : List (String × List Nat)) (counts : Int → Nat) (u1 u2 : List Nat)
    (hperm : u1.Perm u2) (hlen : ids1.length = ids2.length) (hseed : cfg.seed ≠ "") :
    applyStrategy R cfg ids1 (some ⟨acc, counts, u1⟩) =
    applyStrategy R cfg ids2 (some ⟨acc, counts, u2⟩) := by
  unfold applyStrategy
  split_ifs
  · rw [shardByRoundRobin_eq R ids1 ids2 cfg.shardCount cfg.seed acc counts u1 u2 hperm hseed]
  · rw [shardByRendezvous_eq ids1 ids2 cfg.shardCount cfg.seed acc counts u1 u2 hperm]
  · rw [shardByPercentage_eq R ids1 ids2 cfg.shardPercentages cfg.seed acc counts u1 u2
      hperm hlen hseed]
  · rw [shardBySize_eq R ids1 ids2 cfg.shardSizes cfg.seed acc counts u1 u2 hperm hseed]
  · rfl

theorem applyReservations_rel (ids1 ids2 : List Nat) (rmap : List (String × List Nat))
    (n : Int) (h : ids1.Perm ids2) :
    (∀ e, applyReservations ids1 rmap n = .error e ↔ applyReservations ids2 rmap n = .error e) ∧
    (∀ r1 r2, applyReservations ids1 rmap n = .ok r1 → applyReservations ids2 rmap n = .ok r2 →
      r1.idsByShard = r2.idsByShard ∧ r1.countsByShard = r2.countsByShard ∧
      r1.unreservedIDs.Perm r2.unreservedIDs) := by
  unfold applyReservations
  by_cases hm : rmap = []
  · simp only [if_pos hm]
    constructor
    · intro e
      constructor <;> intro hc <;> simp at hc
    · intro r1 r2 h1 h2
      cases h1
      cases h2
      exact ⟨rfl, rfl, h⟩
  · simp only [if_neg hm]
    rcases hg : applyResGo n rmap [] (fun _ => 0) [] with e0 | out
    · simp only [hg]
      constructor
      · intro e
        trivial
      · intro r1 r2 h1 h2
        simp at h1
    · rcases out with ⟨acc, counts, seen⟩
      simp only [hg]
      constructor
      · intro e
        constructor <;> intro hc <;> simp at hc
      · intro r1 r2 h1 h2
        cases h1
        cases h2
        refine ⟨rfl, rfl, ?_⟩
        show (if seen = [] then ids1 else _).Perm (if seen = [] then ids2 else _)
        split
        · exact h
        · exact h.filter _

/-- C2: for every strategy, every parameter set, every exclusion list and
reservation map, and every non-empty seed, two pipeline runs whose input
identifier lists contain the same set of identifiers (in any orders)
produce identical output: the same identifiers in the same buckets in
the same order (or the identical error). -/
theorem c2_order_independence {σ : Type} (R : RNGImpl σ) (cfg : SConfig)
    (ids1 ids2 : List Nat) (h1 : ids1.Nodup) (h2 : ids2.Nodup)
    (hmem : ∀ x, x ∈ ids1 ↔ x ∈ ids2) (hseed : cfg.seed ≠ "") :
    runPipeline R cfg ids1 = runPipeline R cfg ids2 := by
  have hperm : ids1.Perm ids2 := (List.perm_ext_iff_of_nodup h1 h2).mpr hmem
  have hf := applyExclusions_perm ids1 ids2 cfg.excludeIDs hperm
  obtain ⟨herr, hok⟩ := applyReservations_rel (applyExclusions ids1 cfg.excludeIDs)
    (applyExclusions ids2 cfg.excludeIDs) cfg.reservedIDs (resolveShardCount cfg) hf
  simp only [runPipeline]
  rcases hr1 : applyReservations (applyExclusions ids1 cfg.excludeIDs) cfg.reservedIDs
      (resolveShardCount cfg) with e1 | r1
  · have hr2 := (herr e1).mp hr1
    simp only [hr1, hr2]
  · rcases hr2 : applyReservations (applyExclusions ids2 cfg.excludeIDs) cfg.reservedIDs
        (resolveShardCount cfg) with e2 | r2
    · have hcon := (herr e2).mpr hr2
      rw [hr1] at hcon
      simp at hcon
    · simp only [hr1, hr2]
      obtain ⟨hA, hB, hC⟩ := hok r1 r2 hr1 hr2
      rcases r1 with ⟨a1, c1, v1⟩
      rcases r2 with ⟨a2, c2, v2⟩
      simp only at hA hB hC
      subst hA
      subst hB
      exact applyStrategy_eq R cfg _ _ a1 c1 v1 v2 hC hf.length_eq hseed

/-- Witness for C2: round-robin over two shards with seed `"s"` on the
identifier lists `[1, 2]` and `[2, 1]`. -/
theorem c2_order_independence_witness :
    ([1, 2] : List Nat).Nodup ∧ ([2, 1] : List Nat).Nodup ∧
    (∀ x : Nat, x ∈ ([1, 2] : List Nat) ↔ x ∈ ([2, 1] : List Nat)) ∧
    (⟨"round-robin", 2, [], [], "s", [], []⟩ : SConfig).seed ≠ "" ∧
    runPipeline trivialRNG ⟨"round-robin", 2, [], [], "s", [], []⟩ [1, 2] =
      runPipeline trivialRNG ⟨"round-robin", 2, [], [], "s", [], []⟩ [2, 1] :=
  ⟨by decide, by decide, by intro x; constructor <;> intro hx <;> simp_all <;> tauto,
   by decide,
   c2_order_independence trivialRNG ⟨"round-robin", 2, [], [], "s", [], []⟩ [1, 2] [2, 1]
     (by decide) (by decide)
     (by intro x; constructor <;> intro hx <;> simp_all <;> tauto) (by decide)⟩

/-! ### Bucket-size characterization of the slice-carving loops -/

/-- The length of every bucket, in order. -/
def bucketLens (sh : List GoSlice) : List Nat := sh.map (fun b => (sElems b).length)

/-- The sequence of bucket sizes produced by the percentage loop,
written as a direct recursion on the percentage list. -/
def percSizesSpec (len T : Nat) (rc : Nat → Nat) (n : Nat) :
    List Int → Nat → Nat → List Nat
  | [], _, _ => []
  | p :: rest, i, c =>
      (percShardSize len T rc n i c p).toNat ::
        percSizesSpec len T rc n rest (i + 1) (c + (percShardSize len T rc n i c p).toNat)

theorem percShardSize_le (len T : Nat) (rc : Nat → Nat) (n i c : Nat) (p : Int) :
    percShardSize len T rc n i c p ≤ (len : Int) - (c : Int) := by
  simp only [percShardSize]
  split <;> split <;> omega

theorem percShardSize_toNat_le (len T : Nat) (rc : Nat → Nat) (n i c : Nat) (p : Int)
    (hc : c ≤ len) : (percShardSize len T rc n i c p).toNat ≤ len - c := by
  have := percShardSize_le len T rc n i c p
  omega

theorem take_set_eq {α : Type} (l : List α) (i : Nat) (x : α) :
    (l.set i x).take i = l.take i := by
  rw [List.set_eq_take_append_cons_drop]
  split
  · rename_i h
    have hlen : (l.take i).length = i := by
      rw [List.length_take]
      omega
    calc (l.take i ++ x :: l.drop (i + 1)).take i
        = (l.take i ++ x :: l.drop (i + 1)).take (l.take i).length := by rw [hlen]
      _ = l.take i := List.take_left _ _
  · rfl

theorem take_succ_set {α : Type} (l : List α) (i : Nat) (x : α) (h : i < l.length) :
    (l.set i x).take (i + 1) = l.take i ++ [x] := by
  rw [List.take_succ, take_set_eq]
  congr 1
  rw [List.getElem?_set_self (by simpa using h)]
  rfl

theorem bucketLens_set (sh : List GoSlice) (i : Nat) (v : GoSlice) :
    bucketLens (sh.set i v) = (bucketLens sh).set i (sElems v).length := by
  simp [bucketLens, List.map_set]

theorem getD_replicate_none (n j : Nat) :
    (List.replicate n (none : GoSlice)).getD j none = none := by
  simp only [List.getD_eq_getElem?_getD, List.getElem?_replicate]
  split <;> rfl

theorem slice_length (dist : List Nat) (c s : Nat) (h : s ≤ dist.length - c) :
    ((dist.drop c).take s).length = s := by
  rw [List.length_take, List.length_drop]
  omega

theorem percLoop_bucketLens (dist : List Nat) (len T : Nat) (rc : Nat → Nat) (n : Nat)
    (hdist : dist.length = len) :
    ∀ (ps : List Int) (i c : Nat) (sh : List GoSlice),
      i + ps.length = n → c ≤ len → sh.length = n →
      (∀ j, i ≤ j → sh.getD j none = none) →
      bucketLens ((percLoop dist len T rc n ps i c sh).1) =
        (bucketLens sh).take i ++ percSizesSpec len T rc n ps i c
  | [], i, c, sh, hin, _, hlen, _ => by
      rw [percLoop, percSizesSpec, List.append_nil]
      have hlen2 : (bucketLens sh).length = n := by simp [bucketLens, hlen]
      have hin2 : i = n := by simpa using hin
      rw [List.take_of_length_le (by omega)]
  | p :: rest, i, c, sh, hin, hc, hlen, hun => by
      have hi : i < n := by
        have := List.length_pos.mpr (List.cons_ne_nil p rest)
        omega
      have hile : i < sh.length := by rw [hlen]; exact hi
      have hsle := percShardSize_toNat_le len T rc n i c p hc
      rw [percLoop, percSizesSpec]
      split
      · rename_i hpos
        rw [percLoop_bucketLens dist len T rc n hdist rest (i + 1)
            (c + (percShardSize len T rc n i c p).toNat)
            (sh.set i (some ((dist.drop c).take (percShardSize len T rc n i c p).toNat)))
            (by simp only [List.length_cons] at hin; omega) (by omega) (by simpa using hlen)
            (fun j hj => by
              rw [getD_set_ne _ _ _ _ (by omega)]
              exact hun j (by omega))]
        rw [bucketLens_set]
        rw [take_succ_set _ _ _ (by simpa [bucketLens] using hile)]
        have hslice : (sElems (some ((dist.drop c).take
            (percShardSize len T rc n i c p).toNat))).length =
            (percShardSize len T rc n i c p).toNat := by
          show ((dist.drop c).take _).length = _
          rw [slice_length]
          omega
        rw [hslice]
        simp [List.append_assoc]
      · rename_i hneg
        rw [percLoop_bucketLens dist len T rc n hdist rest (i + 1) c sh
            (by simp only [List.length_cons] at hin; omega) hc hlen
            (fun j hj => hun j (by omega))]
        have hz : (percShardSize len T rc n i c p).toNat = 0 := by omega
        rw [hz, Nat.add_zero]
        rw [List.take_succ]
        have hnone : sh.getD i none = none := hun i (le_refl i)
        have hval : (bucketLens sh)[i]? = some 0 := by
          have h1 : sh[i]? = some none := by
            have := List.getD_eq_getElem?_getD sh i none
            rw [hnone] at this
            rcases h2 : sh[i]? with _ | v
            · rw [List.getElem?_eq_none_iff] at h2
              omega
            · rw [h2] at this
              simp at this
              rw [this]
          simp [bucketLens, List.getElem?_map, h1, sElems]
        rw [hval]
        simp

theorem percSizesSpec_getD (len T : Nat) (rc : Nat → Nat) (n : Nat) :
    ∀ (ps : List Int) (i c m : Nat), m < ps.length →
      (percSizesSpec len T rc n ps i c).getD m 0 =
        (percShardSize len T rc n (i + m)
          (c + ((percSizesSpec len T rc n ps i c).take m).sum) (ps.getD m 0)).toNat
  | [], i, c, m, hm => by simp at hm
  | p :: rest, i, c, 0, _ => by
      simp [percSizesSpec]
  | p :: rest, i, c, m + 1, hm => by
      rw [percSizesSpec]
      simp only [List.getD_cons_succ, List.take_succ_cons, List.sum_cons]
      rw [percSizesSpec_getD len T rc n rest (i + 1)
        (c + (percShardSize len T rc n i c p).toNat) m (by simpa using hm)]
      have h1 : i + 1 + m = i + (m + 1) := by omega
      have h2 : c + (percShardSize len T rc n i c p).toNat +
          ((percSizesSpec len T rc n rest (i + 1)
            (c + (percShardSize len T rc n i c p).toNat)).take m).sum =
          c + ((percShardSize len T rc n i c p).toNat +
          ((percSizesSpec len T rc n rest (i + 1)
            (c + (percShardSize len T rc n i c p).toNat)).take m).sum) := by omega
      rw [h1, h2]

theorem percSizesSpec_sum_le (len T : Nat) (rc : Nat → Nat) (n : Nat) :
    ∀ (ps : List Int) (i c : Nat), c ≤ len →
      ∀ m, c + ((percSizesSpec len T rc n ps i c).take m).sum ≤ len
  | [], i, c, hc, m => by simp [percSizesSpec]; omega
  | p :: rest, i, c, hc, 0 => by simp; omega
  | p :: rest, i, c, hc, m + 1 => by
      rw [percSizesSpec]
      simp only [List.take_succ_cons, List.sum_cons]
      have hsle := percShardSize_toNat_le len T rc n i c p hc
      have := percSizesSpec_sum_le len T rc n rest (i + 1)
        (c + (percShardSize len T rc n i c p).toNat) (by omega) m
      omega

theorem percShardSize_eq_min (len T : Nat) (rc : Nat → Nat) (n i c : Nat) (p : Int) :
    percShardSize len T rc n i c p =
      if i = n - 1 then (len : Int) - (c : Int)
      else min (percSize T p - (rc i : Int)) ((len : Int) - (c : Int)) := by
  simp only [percShardSize]
  by_cases hl : i = n - 1
  · rw [if_pos hl, if_pos hl, if_neg (by omega)]
  · rw [if_neg hl, if_neg hl]
    rcases le_or_lt (percSize T p - (rc i : Int)) ((len : Int) - (c : Int)) with h | h
    · rw [if_neg (by omega), min_eq_left h]
    · rw [if_pos (by omega), min_eq_right (by omega)]

theorem fyLoop_length {σ : Type} (intn : σ → Nat → Nat × σ) :
    ∀ (i : Nat) (r : σ) (xs : List Nat), (fyLoop intn r xs i).length = xs.length
  | 0, _, _ => rfl
  | i + 1, r, xs => by
      rw [fyLoop, fyLoop_length intn i, listSwap_length]

theorem sortAndShuffleIfSeed_length {σ : Type} (R : RNGImpl σ) (ids : List Nat)
    (seed : String) : (sortAndShuffleIfSeed R ids seed).length = ids.length := by
  unfold sortAndShuffleIfSeed
  split
  · rfl
  · unfold shuffleIDs
    rw [fyLoop_length]
    exact (List.perm_insertionSort _ _).length_eq

/-- The bucket list produced by the percentage carving loop, before
reservations are merged and buckets sorted. -/
def percDistributed {σ : Type} (R : RNGImpl σ) (ids : List Nat) (percentages : List Int)
    (seed : String) (res : Option ShardReservations) : List GoSlice :=
  (percLoop (sortAndShuffleIfSeed R (unreservedPool ids res) seed)
    (unreservedPool ids res).length ids.length (resCount res) percentages.length
    percentages 0 0 (List.replicate percentages.length (none : GoSlice))).1

theorem bucketLens_percDistributed {σ : Type} (R : RNGImpl σ) (ids : List Nat)
    (percentages : List Int) (seed : String) (res : Option ShardReservations) :
    bucketLens (percDistributed R ids percentages seed res) =
      percSizesSpec (unreservedPool ids res).length ids.length (resCount res)
        percentages.length percentages 0 0 := by
  rw [percDistributed,
    percLoop_bucketLens _ _ _ _ _ (sortAndShuffleIfSeed_length R _ seed)
      percentages 0 0 _ (by simp) (Nat.zero_le _) (by simp)
      (fun j _ => getD_replicate_none _ j)]
  rw [List.take_zero, List.nil_append]

set_option maxRecDepth 100000 in
/-- C6: in `shardByPercentage`, every shard except the last is carved to
`floor(T * p_i / 100) - reservedCount[i]` clamped to the remaining
distributable pool (expressed as a `min`), the last shard takes all
remaining distributable identifiers, the cursor never exceeds the pool,
the strategy output is exactly these carved buckets with reservations
merged and sorted (when the distributable pool is non-empty), and with
1000 distributable identifiers, percentages `[5, 20, 75]`, no seed and no
reservations the bucket sizes are exactly 50, 200, 750. -/
theorem c6_percentage_sizes {σ : Type} (R : RNGImpl σ) (ids : List Nat)
    (percentages : List Int) (seed : String) (res : Option ShardReservations)
    (i : Nat) (hi : i < percentages.length) :
    (unreservedPool ids res ≠ [] →
      shardByPercentage R ids percentages seed res =
        (mergeReservations (percDistributed R ids percentages seed res) res).map
          sortBucket) ∧
    ((bucketLens (percDistributed R ids percentages seed res)).take i).sum ≤
      (unreservedPool ids res).length ∧
    (bucketLens (percDistributed R ids percentages seed res)).getD i 0 =
      (if i = percentages.length - 1
       then ((unreservedPool ids res).length : Int) -
         (((bucketLens (percDistributed R ids percentages seed res)).take i).sum : Int)
       else min (percSize ids.length (percentages.getD i 0) - (resCount res i : Int))
         (((unreservedPool ids res).length : Int) -
           (((bucketLens (percDistributed R ids percentages seed res)).take i).sum :
             Int))).toNat ∧
    (shardByPercentage trivialRNG (List.range 1000) [5, 20, 75] "" none).map
      (fun b => (sElems b).length) = [50, 200, 750] := by
  refine ⟨?_, ?_, ?_, by decide⟩
  · intro hne
    simp only [shardByPercentage, percDistributed]
    rw [if_neg (by simpa using hne)]
  · rw [bucketLens_percDistributed]
    simpa using percSizesSpec_sum_le (unreservedPool ids res).length ids.length
      (resCount res) percentages.length percentages 0 0 (Nat.zero_le _) i
  · rw [bucketLens_percDistributed,
      percSizesSpec_getD _ _ _ _ percentages 0 0 i hi,
      percShardSize_eq_min]
    simp only [Nat.zero_add]

theorem c6_percentage_sizes_witness :
    (unreservedPool [0, 1] none ≠ [] →
      shardByPercentage trivialRNG [0, 1] [100] "" none =
        (mergeReservations (percDistributed trivialRNG [0, 1] [100] "" none) none).map
          sortBucket) ∧
    ((bucketLens (percDistributed trivialRNG [0, 1] [100] "" none)).take 0).sum ≤
      (unreservedPool [0, 1] none).length ∧
    (bucketLens (percDistributed trivialRNG [0, 1] [100] "" none)).getD 0 0 =
      (if 0 = List.length [(100 : Int)] - 1
       then ((unreservedPool [0, 1] none).length : Int) -
         (((bucketLens (percDistributed trivialRNG [0, 1] [100] "" none)).take 0).sum : Int)
       else min (percSize (List.length [0, 1]) (List.getD [(100 : Int)] 0 0) -
           (resCount none 0 : Int))
         (((unreservedPool [0, 1] none).length : Int) -
           (((bucketLens (percDistributed trivialRNG [0, 1] [100] "" none)).take 0).sum :
             Int))).toNat ∧
    (shardByPercentage trivialRNG (List.range 1000) [5, 20, 75] "" none).map
      (fun b => (sElems b).length) = [50, 200, 750] :=
  c6_percentage_sizes trivialRNG [0, 1] [100] "" none 0 (by decide)

/-- The sequence of bucket sizes produced by the size carving loop,
written as a direct recursion on the size list. -/
def sizeSizesSpec (len : Nat) (rc : Nat → Nat) : List Int → Nat → Nat → List Nat
  | [], _, _ => []
  | s :: rest, i, c =>
      (sizeShardSize len rc i c s).toNat ::
        sizeSizesSpec len rc rest (i + 1) (c + (sizeShardSize len rc i c s).toNat)

theorem sizeShardSize_le (len : Nat) (rc : Nat → Nat) (i c : Nat) (s : Int) :
    sizeShardSize len rc i c s ≤ (len : Int) - (c : Int) := by
  simp only [sizeShardSize]
  split
  · omega
  · split <;> omega

theorem sizeShardSize_toNat_le (len : Nat) (rc : Nat → Nat) (i c : Nat) (s : Int)
    (hc : c ≤ len) : (sizeShardSize len rc i c s).toNat ≤ len - c := by
  have := sizeShardSize_le len rc i c s
  omega

theorem sizeLoop_bucketLens (dist : List Nat) (len : Nat) (rc : Nat → Nat) (n : Nat)
    (hdist : dist.length = len) :
    ∀ (ss : List Int) (i c : Nat) (sh : List GoSlice),
      i + ss.length = n → c ≤ len → sh.length = n →
      bucketLens ((sizeLoop dist len rc ss i c sh).1) =
        (bucketLens sh).take i ++ sizeSizesSpec len rc ss i c
  | [], i, c, sh, hin, _, hlen => by
      rw [sizeLoop, sizeSizesSpec, List.append_nil]
      have hlen2 : (bucketLens sh).length = n := by simp [bucketLens, hlen]
      have hin2 : i = n := by simpa using hin
      rw [List.take_of_length_le (by omega)]
  | s :: rest, i, c, sh, hin, hc, hlen => by
      have hi : i < n := by
        simp only [List.length_cons] at hin
        omega
      have hile : i < sh.length := by rw [hlen]; exact hi
      have hsle := sizeShardSize_toNat_le len rc i c s hc
      rw [sizeLoop, sizeSizesSpec]
      split
      · rename_i hpos
        rw [sizeLoop_bucketLens dist len rc n hdist rest (i + 1)
            (c + (sizeShardSize len rc i c s).toNat) _
            (by simp only [List.length_cons] at hin; omega) (by omega)
            (by simpa using hlen)]
        rw [bucketLens_set]
        rw [take_succ_set _ _ _ (by simpa [bucketLens] using hile)]
        have hslice : (sElems (some ((dist.drop c).take
            (sizeShardSize len rc i c s).toNat))).length =
            (sizeShardSize len rc i c s).toNat := by
          show ((dist.drop c).take _).length = _
          rw [slice_length]
          omega
        rw [hslice]
        simp [List.append_assoc]
      · rename_i hneg
        rw [sizeLoop_bucketLens dist len rc n hdist rest (i + 1) c _
            (by simp only [List.length_cons] at hin; omega) hc
            (by simpa using hlen)]
        have hz : (sizeShardSize len rc i c s).toNat = 0 := by
          have := sizeShardSize_le len rc i c s
          omega
        rw [hz, Nat.add_zero]
        rw [bucketLens_set]
        rw [take_succ_set _ _ _ (by simpa [bucketLens] using hile)]
        have hslice : (sElems (some ([] : List Nat))).length = 0 := rfl
        rw [hslice]
        simp [List.append_assoc]

theorem sizeSizesSpec_getD (len : Nat) (rc : Nat → Nat) :
    ∀ (ss : List Int) (i c m : Nat), m < ss.length →
      (sizeSizesSpec len rc ss i c).getD m 0 =
        (sizeShardSize len rc (i + m)
          (c + ((sizeSizesSpec len rc ss i c).take m).sum) (ss.getD m 0)).toNat
  | [], i, c, m, hm => by simp at hm
  | s :: rest, i, c, 0, _ => by
      simp [sizeSizesSpec]
  | s :: rest, i, c, m + 1, hm => by
      rw [sizeSizesSpec]
      simp only [List.getD_cons_succ, List.take_succ_cons, List.sum_cons]
      rw [sizeSizesSpec_getD len rc rest (i + 1)
        (c + (sizeShardSize len rc i c s).toNat) m (by simpa using hm)]
      have h1 : i + 1 + m = i + (m + 1) := by omega
      have h2 : c + (sizeShardSize len rc i c s).toNat +
          ((sizeSizesSpec len rc rest (i + 1)
            (c + (sizeShardSize len rc i c s).toNat)).take m).sum =
          c + ((sizeShardSize len rc i c s).toNat +
          ((sizeSizesSpec len rc rest (i + 1)
            (c + (sizeShardSize len rc i c s).toNat)).take m).sum) := by omega
      rw [h1, h2]

theorem sizeSizesSpec_sum_le (len : Nat) (rc : Nat → Nat) :
    ∀ (ss : List Int) (i c : Nat), c ≤ len →
      ∀ m, c + ((sizeSizesSpec len rc ss i c).take m).sum ≤ len
  | [], i, c, hc, m => by simp [sizeSizesSpec]; omega
  | s :: rest, i, c, hc, 0 => by simp; omega
  | s :: rest, i, c, hc, m + 1 => by
      rw [sizeSizesSpec]
      simp only [List.take_succ_cons, List.sum_cons]
      have hsle := sizeShardSize_toNat_le len rc i c s hc
      have := sizeSizesSpec_sum_le len rc rest (i + 1)
        (c + (sizeShardSize len rc i c s).toNat) (by omega) m
      omega

theorem sizeShardSize_eq_min (len : Nat) (rc : Nat → Nat) (i c : Nat) (s : Int) :
    sizeShardSize len rc i c s =
      if s = -1 then (len : Int) - (c : Int)
      else min (s - (rc i : Int)) ((len : Int) - (c : Int)) := by
  simp only [sizeShardSize]
  by_cases hl : s = -1
  · rw [if_pos hl, if_pos hl]
  · rw [if_neg hl, if_neg hl]
    rcases le_or_lt (s - (rc i : Int)) ((len : Int) - (c : Int)) with h | h
    · rw [if_neg (by omega), min_eq_left h]
    · rw [if_pos (by omega), min_eq_right (by omega)]

/-- The bucket list produced by the size carving loop, before
reservations are merged and buckets sorted. -/
def sizeDistributed {σ : Type} (R : RNGImpl σ) (ids : List Nat) (sizes : List Int)
    (seed : String) (res : Option ShardReservations) : List GoSlice :=
  (sizeLoop (sortAndShuffleIfSeed R (unreservedPool ids res) seed)
    (unreservedPool ids res).length (resCount res)
    sizes 0 0 (List.replicate sizes.length (none : GoSlice))).1

theorem bucketLens_sizeDistributed {σ : Type} (R : RNGImpl σ) (ids : List Nat)
    (sizes : List Int) (seed : String) (res : Option ShardReservations) :
    bucketLens (sizeDistributed R ids sizes seed res) =
      sizeSizesSpec (unreservedPool ids res).length (resCount res) sizes 0 0 := by
  rw [sizeDistributed,
    sizeLoop_bucketLens _ _ _ sizes.length (sortAndShuffleIfSeed_length R _ seed)
      sizes 0 0 _ (by simp) (Nat.zero_le _) (by simp)]
  rw [List.take_zero, List.nil_append]

set_option maxRecDepth 100000 in
/-- C7: in `shardBySize`, a shard with size entry `-1` is carved to all
remaining distributable identifiers, and any other shard to
`s - reservedCount[i]` clamped to what remains of the distributable pool
(expressed as a `min`, so under-supply fills with whatever is available
and is not an error), the cursor never exceeds the pool, the strategy
output is exactly these carved buckets with reservations merged and
sorted (when the distributable pool is non-empty); with 700
distributable identifiers and sizes `[100, 500, -1]` the bucket sizes
are exactly 100, 500, 100, and with 50 distributable identifiers they
are 50, 0, 0. -/
theorem c7_size_clamping {σ : Type} (R : RNGImpl σ) (ids : List Nat)
    (sizes : List Int) (seed : String) (res : Option ShardReservations)
    (i : Nat) (hi : i < sizes.length) :
    (unreservedPool ids res ≠ [] →
      shardBySize R ids sizes seed res =
        (mergeReservations (sizeDistributed R ids sizes seed res) res).map
          sortBucket) ∧
    ((bucketLens (sizeDistributed R ids sizes seed res)).take i).sum ≤
      (unreservedPool ids res).length ∧
    (bucketLens (sizeDistributed R ids sizes seed res)).getD i 0 =
      (if sizes.getD i 0 = -1
       then ((unreservedPool ids res).length : Int) -
         (((bucketLens (sizeDistributed R ids sizes seed res)).take i).sum : Int)
       else min (sizes.getD i 0 - (resCount res i : Int))
         (((unreservedPool ids res).length : Int) -
           (((bucketLens (sizeDistributed R ids sizes seed res)).take i).sum :
             Int))).toNat ∧
    (shardBySize trivialRNG (List.range 700) [100, 500, -1] "" none).map
      (fun b => (sElems b).length) = [100, 500, 100] ∧
    (shardBySize trivialRNG (List.range 50) [100, 500, -1] "" none).map
      (fun b => (sElems b).length) = [50, 0, 0] := by
  refine ⟨?_, ?_, ?_, by decide, by decide⟩
  · intro hne
    simp only [shardBySize, sizeDistributed]
    rw [if_neg (by simpa using hne)]
  · rw [bucketLens_sizeDistributed]
    simpa using sizeSizesSpec_sum_le (unreservedPool ids res).length
      (resCount res) sizes 0 0 (Nat.zero_le _) i
  · rw [bucketLens_sizeDistributed,
      sizeSizesSpec_getD _ _ sizes 0 0 i hi,
      sizeShardSize_eq_min]
    simp only [Nat.zero_add]

theorem c7_size_clamping_witness :
    (unreservedPool [0, 1] none ≠ [] →
      shardBySize trivialRNG [0, 1] [-1] "" none =
        (mergeReservations (sizeDistributed trivialRNG [0, 1] [-1] "" none) none).map
          sortBucket) ∧
    ((bucketLens (sizeDistributed trivialRNG [0, 1] [-1] "" none)).take 0).sum ≤
      (unreservedPool [0, 1] none).length ∧
    (bucketLens (sizeDistributed trivialRNG [0, 1] [-1] "" none)).getD 0 0 =
      (if List.getD [(-1 : Int)] 0 0 = -1
       then ((unreservedPool [0, 1] none).length : Int) -
         (((bucketLens (sizeDistributed trivialRNG [0, 1] [-1] "" none)).take 0).sum : Int)
       else min (List.getD [(-1 : Int)] 0 0 - (resCount none 0 : Int))
         (((unreservedPool [0, 1] none).length : Int) -
           (((bucketLens (sizeDistributed trivialRNG [0, 1] [-1] "" none)).take 0).sum :
             Int))).toNat ∧
    (shardBySize trivialRNG (List.range 700) [100, 500, -1] "" none).map
      (fun b => (sElems b).length) = [100, 500, 100] ∧
    (shardBySize trivialRNG (List.range 50) [100, 500, -1] "" none).map
      (fun b => (sElems b).length) = [50, 0, 0] :=
  c7_size_clamping trivialRNG [0, 1] [-1] "" none 0 (by decide)

/-! ### Coverage of the carving loops: every distributed identifier lands in a bucket -/

theorem joinElems_replicate_none (k : Nat) :
    joinElems (List.replicate k (none : GoSlice)) = [] := by
  induction k with
  | zero => rfl
  | succ m ih => rw [List.replicate_succ, joinElems_cons, ih]; rfl

theorem joinElems_replicate_someNil (k : Nat) :
    joinElems (List.replicate k (some ([] : List Nat))) = [] := by
  induction k with
  | zero => rfl
  | succ m ih => rw [List.replicate_succ, joinElems_cons, ih]; rfl

theorem percLoop_join (dist : List Nat) (len T : Nat) (rc : Nat → Nat) (n : Nat)
    (hdist : dist.length = len) :
    ∀ (ps : List Int) (i c : Nat) (sh : List GoSlice),
      i + ps.length = n → c ≤ len → sh.length = n →
      (∀ j, i ≤ j → sh.getD j none = none) →
      c ≤ (percLoop dist len T rc n ps i c sh).2 ∧
      (percLoop dist len T rc n ps i c sh).2 ≤ len ∧
      (joinElems ((percLoop dist len T rc n ps i c sh).1)).Perm
        ((dist.drop c).take ((percLoop dist len T rc n ps i c sh).2 - c) ++ joinElems sh)
  | [], i, c, sh, _, hc, _, _ => by
      rw [percLoop]
      exact ⟨le_refl c, hc, by simp⟩
  | p :: rest, i, c, sh, hin, hc, hlen, hun => by
      have hi : i < n := by
        simp only [List.length_cons] at hin
        omega
      have hile : i < sh.length := by rw [hlen]; exact hi
      have hsle := percShardSize_toNat_le len T rc n i c p hc
      rw [percLoop]
      split
      · rename_i hpos
        revert hsle
        generalize (percShardSize len T rc n i c p).toNat = s
        intro hsle
        obtain ⟨h1, h2, h3⟩ := percLoop_join dist len T rc n hdist rest (i + 1) (c + s)
          (sh.set i (some ((dist.drop c).take s)))
          (by simp only [List.length_cons] at hin; omega) (by omega)
          (by simpa using hlen)
          (fun j hj => by
            rw [getD_set_ne _ _ _ _ (by omega)]
            exact hun j (by omega))
        refine ⟨by omega, h2, ?_⟩
        refine h3.trans ?_
        have hset : (joinElems (sh.set i (some ((dist.drop c).take s)))).Perm
            ((dist.drop c).take s ++ joinElems sh) := by
          apply joinElems_set_perm _ _ _ _ hile
          rw [hun i (le_refl i)]
          simp [sElems]
        have htake : (dist.drop c).take
            ((percLoop dist len T rc n rest (i + 1) (c + s)
              (sh.set i (some ((dist.drop c).take s)))).2 - c) =
            (dist.drop c).take s ++
            (dist.drop (c + s)).take
              ((percLoop dist len T rc n rest (i + 1) (c + s)
                (sh.set i (some ((dist.drop c).take s)))).2 - (c + s)) := by
          rw [show (percLoop dist len T rc n rest (i + 1) (c + s)
              (sh.set i (some ((dist.drop c).take s)))).2 - c =
              s + ((percLoop dist len T rc n rest (i + 1) (c + s)
                (sh.set i (some ((dist.drop c).take s)))).2 - (c + s)) from by omega,
            List.take_add, List.drop_drop]
        rw [htake]
        refine (List.Perm.append_left _ hset).trans ?_
        rw [← List.append_assoc]
        exact (List.perm_append_comm).append_right _
      · rename_i hneg
        exact percLoop_join dist len T rc n hdist rest (i + 1) c sh
          (by simp only [List.length_cons] at hin; omega) hc hlen
          (fun j hj => hun j (by omega))

theorem percLoop_cursor_final (dist : List Nat) (len T : Nat) (rc : Nat → Nat) (n : Nat) :
    ∀ (ps : List Int) (i c : Nat) (sh : List GoSlice),
      ps ≠ [] → i + ps.length = n → c ≤ len →
      (percLoop dist len T rc n ps i c sh).2 = len
  | [], _, _, _, hne, _, _ => absurd rfl hne
  | [p], i, c, sh, _, hin, hc => by
      have hi : i = n - 1 ∧ 1 ≤ n := by
        simp only [List.length_cons, List.length_nil] at hin
        omega
      have hsz : percShardSize len T rc n i c p = (len : Int) - (c : Int) := by
        simp only [percShardSize]
        rw [if_pos hi.1, if_neg (by omega)]
      rw [percLoop]
      split
      · rename_i hpos
        rw [percLoop]
        show c + (percShardSize len T rc n i c p).toNat = len
        rw [hsz]
        omega
      · rename_i hneg
        rw [percLoop]
        show c = len
        rw [hsz] at hneg
        omega
  | p :: q :: rest, i, c, sh, _, hin, hc => by
      have hsle := percShardSize_toNat_le len T rc n i c p hc
      rw [percLoop]
      split
      · exact percLoop_cursor_final dist len T rc n (q :: rest) (i + 1)
          (c + (percShardSize len T rc n i c p).toNat) _ (by simp)
          (by simp only [List.length_cons] at hin ⊢; omega) (by omega)
      · exact percLoop_cursor_final dist len T rc n (q :: rest) (i + 1) c sh (by simp)
          (by simp only [List.length_cons] at hin ⊢; omega) hc

theorem sizeLoop_join (dist : List Nat) (len : Nat) (rc : Nat → Nat) (n : Nat)
    (hdist : dist.length = len) :
    ∀ (ss : List Int) (i c : Nat) (sh : List GoSlice),
      i + ss.length = n → c ≤ len → sh.length = n →
      (∀ j, i ≤ j → sh.getD j none = none) →
      c ≤ (sizeLoop dist len rc ss i c sh).2 ∧
      (sizeLoop dist len rc ss i c sh).2 ≤ len ∧
      (joinElems ((sizeLoop dist len rc ss i c sh).1)).Perm
        ((dist.drop c).take ((sizeLoop dist len rc ss i c sh).2 - c) ++ joinElems sh)
  | [], i, c, sh, _, hc, _, _ => by
      rw [sizeLoop]
      exact ⟨le_refl c, hc, by simp⟩
  | s :: rest, i, c, sh, hin, hc, hlen, hun => by
      have hi : i < n := by
        simp only [List.length_cons] at hin
        omega
      have hile : i < sh.length := by rw [hlen]; exact hi
      have hsle := sizeShardSize_toNat_le len rc i c s hc
      rw [sizeLoop]
      split
      · rename_i hpos
        revert hsle
        generalize (sizeShardSize len rc i c s).toNat = z
        intro hsle
        obtain ⟨h1, h2, h3⟩ := sizeLoop_join dist len rc n hdist rest (i + 1) (c + z)
          (sh.set i (some ((dist.drop c).take z)))
          (by simp only [List.length_cons] at hin; omega) (by omega)
          (by simpa using hlen)
          (fun j hj => by
            rw [getD_set_ne _ _ _ _ (by omega)]
            exact hun j (by omega))
        refine ⟨by omega, h2, ?_⟩
        refine h3.trans ?_
        have hset : (joinElems (sh.set i (some ((dist.drop c).take z)))).Perm
            ((dist.drop c).take z ++ joinElems sh) := by
          apply joinElems_set_perm _ _ _ _ hile
          rw [hun i (le_refl i)]
          simp [sElems]
        have htake : (dist.drop c).take
            ((sizeLoop dist len rc rest (i + 1) (c + z)
              (sh.set i (some ((dist.drop c).take z)))).2 - c) =
            (dist.drop c).take z ++
            (dist.drop (c + z)).take
              ((sizeLoop dist len rc rest (i + 1) (c + z)
                (sh.set i (some ((dist.drop c).take z)))).2 - (c + z)) := by
          rw [show (sizeLoop dist len rc rest (i + 1) (c + z)
              (sh.set i (some ((dist.drop c).take z)))).2 - c =
              z + ((sizeLoop dist len rc rest (i + 1) (c + z)
                (sh.set i (some ((dist.drop c).take z)))).2 - (c + z)) from by omega,
            List.take_add, List.drop_drop]
        rw [htake]
        refine (List.Perm.append_left _ hset).trans ?_
        rw [← List.append_assoc]
        exact (List.perm_append_comm).append_right _
      · rename_i hneg
        obtain ⟨h1, h2, h3⟩ := sizeLoop_join dist len rc n hdist rest (i + 1) c
          (sh.set i (some []))
          (by simp only [List.length_cons] at hin; omega) hc
          (by simpa using hlen)
          (fun j hj => by
            rw [getD_set_ne _ _ _ _ (by omega)]
            exact hun j (by omega))
        refine ⟨h1, h2, h3.trans (List.Perm.append_left _ ?_)⟩
        have hset := joinElems_set_perm sh i (some []) [] hile
          (by rw [hun i (le_refl i)]; simp [sElems])
        simpa using hset

theorem sizeLoop_cursor_final (dist : List Nat) (len : Nat) (rc : Nat → Nat) :
    ∀ (ss : List Int) (i c : Nat) (sh : List GoSlice),
      ss.getLast? = some (-1) → c ≤ len →
      (sizeLoop dist len rc ss i c sh).2 = len
  | [], _, _, _, hlast, _ => by simp at hlast
  | [s], i, c, sh, hlast, hc => by
      have hs : s = -1 := by simpa using hlast
      subst hs
      have hsz : sizeShardSize len rc i c (-1) = (len : Int) - (c : Int) := by
        simp [sizeShardSize]
      rw [sizeLoop]
      split
      · rename_i hpos
        rw [sizeLoop]
        show c + (sizeShardSize len rc i c (-1)).toNat = len
        rw [hsz]
        omega
      · rename_i hneg
        rw [sizeLoop]
        show c = len
        rw [hsz] at hneg
        omega
  | s :: q :: rest, i, c, sh, hlast, hc => by
      have hsle := sizeShardSize_toNat_le len rc i c s hc
      have hlast2 : (q :: rest).getLast? = some (-1) := by
        rwa [List.getLast?_cons_cons] at hlast
      rw [sizeLoop]
      split
      · exact sizeLoop_cursor_final dist len rc (q :: rest) (i + 1) _ _ hlast2 (by omega)
      · exact sizeLoop_cursor_final dist len rc (q :: rest) (i + 1) c _ hlast2 hc

theorem applyExclusions_nodup (ids excl : List Nat) (h : ids.Nodup) :
    (applyExclusions ids excl).Nodup := by
  unfold applyExclusions
  split
  · exact h
  · exact h.filter _

theorem applyExclusions_split (ids excl : List Nat) :
    (applyExclusions ids excl ++ ids.filter (fun id => excl.contains id)).Perm ids := by
  unfold applyExclusions
  split
  · rename_i h
    subst h
    have hnil : ids.filter (fun id => ([] : List Nat).contains id) = [] := by
      simp
    rw [hnil, List.append_nil]
  · have hperm := List.filter_append_perm (fun id => !excl.contains id) ids
    refine List.Perm.trans ?_ hperm
    apply List.Perm.append_left
    rw [List.filter_congr (fun a _ => (Bool.not_not (excl.contains a)).symm)]

theorem filtered_split (filtered rids : List Nat)
    (hnd : filtered.Nodup) (hrnd : rids.Nodup)
    (hsub : ∀ id, id ∈ rids → id ∈ filtered) :
    (filtered.filter (fun id => !(rids.contains id)) ++ rids).Perm filtered := by
  have hperm := List.filter_append_perm (fun id => !rids.contains id) filtered
  refine List.Perm.trans ?_ hperm
  apply List.Perm.append_left
  rw [← List.filter_congr (fun a _ => (Bool.not_not (rids.contains a)).symm)]
  rw [List.perm_ext_iff_of_nodup hrnd (hnd.filter _)]
  intro x
  simp only [List.mem_filter, List.elem_eq_mem, decide_eq_true_eq]
  exact ⟨fun hx => ⟨hsub x hx, hx⟩, fun hx => hx.2⟩

theorem joinElems_shardByRoundRobin {σ : Type} (R : RNGImpl σ) (hR : RNGOk R)
    (ids : List Nat) (shardCount : Int) (seed : String) (res : ShardReservations)
    (hmerge : ∀ e, e ∈ res.idsByShard →
      ∃ i : Int, parseShardIdx e.1 = some i ∧ 0 ≤ i ∧
        i.toNat < effShardCount shardCount) :
    (joinElems (shardByRoundRobin R ids shardCount seed (some res))).Perm
      (res.unreservedIDs ++ allIDs res.idsByShard) := by
  simp only [shardByRoundRobin, unreservedPool, mergeReservations]
  refine (joinElems_map_sortBucket _).trans ?_
  refine (joinElems_foldl_mergeEntry res.idsByShard _ ?_).trans ?_
  · intro e he
    obtain ⟨i, h1, h2, h3⟩ := hmerge e he
    refine ⟨i, h1, h2, ?_⟩
    rw [roundRobinGo_length, List.length_replicate]
    exact h3
  · refine List.Perm.trans (List.Perm.append_left _ ?_) List.perm_append_comm
    refine (joinElems_roundRobinGo (effShardCount shardCount) (effShardCount_pos _) _ 0 _
      (by rw [List.length_replicate])).trans ?_
    rw [joinElems_replicate_none, List.append_nil]
    exact sortAndShuffleIfSeed_perm R hR _ seed

theorem joinElems_shardByRendezvous (ids : List Nat) (shardCount : Int)
    (seed : String) (res : ShardReservations)
    (hmerge : ∀ e, e ∈ res.idsByShard →
      ∃ i : Int, parseShardIdx e.1 = some i ∧ 0 ≤ i ∧
        i.toNat < effShardCount shardCount) :
    (joinElems (shardByRendezvous ids shardCount seed (some res))).Perm
      (res.unreservedIDs ++ allIDs res.idsByShard) := by
  simp only [shardByRendezvous, unreservedPool, mergeReservations]
  refine (joinElems_map_sortBucket _).trans ?_
  refine (joinElems_foldl_mergeEntry res.idsByShard _ ?_).trans ?_
  · intro e he
    obtain ⟨i, h1, h2, h3⟩ := hmerge e he
    refine ⟨i, h1, h2, ?_⟩
    rw [rendezvousGo_length, List.length_replicate]
    exact h3
  · refine List.Perm.trans (List.Perm.append_left _ ?_) List.perm_append_comm
    refine (joinElems_rendezvousGo seed (effShardCount shardCount) _ _ ?_).trans ?_
    · intro id _
      rw [List.length_replicate]
      exact selectShard_lt id seed _ (effShardCount_pos _)
    · rw [joinElems_replicate_someNil, List.append_nil]

theorem joinElems_shardByPercentage {σ : Type} (R : RNGImpl σ) (hR : RNGOk R)
    (ids : List Nat) (ps : List Int) (seed : String) (res : ShardReservations)
    (hps : ps ≠ []) (hne : res.unreservedIDs ≠ [])
    (hmerge : ∀ e, e ∈ res.idsByShard →
      ∃ i : Int, parseShardIdx e.1 = some i ∧ 0 ≤ i ∧ i.toNat < ps.length) :
    (joinElems (shardByPercentage R ids ps seed (some res))).Perm
      (res.unreservedIDs ++ allIDs res.idsByShard) := by
  simp only [shardByPercentage, unreservedPool]
  rw [if_neg (by simpa using hne)]
  simp only [mergeReservations]
  refine (joinElems_map_sortBucket _).trans ?_
  refine (joinElems_foldl_mergeEntry res.idsByShard _ ?_).trans ?_
  · intro e he
    obtain ⟨i, h1, h2, h3⟩ := hmerge e he
    refine ⟨i, h1, h2, ?_⟩
    rw [percLoop_length, List.length_replicate]
    exact h3
  · refine List.Perm.trans (List.Perm.append_left _ ?_) List.perm_append_comm
    obtain ⟨h1, h2, h3⟩ := percLoop_join (sortAndShuffleIfSeed R res.unreservedIDs seed)
      res.unreservedIDs.length ids.length (resCount (some res)) ps.length
      (sortAndShuffleIfSeed_length R _ seed) ps 0 0
      (List.replicate ps.length none) (by simp) (Nat.zero_le _) (by simp)
      (fun j _ => getD_replicate_none _ j)
    rw [percLoop_cursor_final _ _ _ _ _ ps 0 0 _ hps (by simp) (Nat.zero_le _)] at h3
    refine h3.trans ?_
    rw [joinElems_replicate_none, List.append_nil, List.drop_zero, Nat.sub_zero,
      List.take_of_length_le (by rw [sortAndShuffleIfSeed_length])]
    exact sortAndShuffleIfSeed_perm R hR _ seed

theorem joinElems_shardBySize {σ : Type} (R : RNGImpl σ) (hR : RNGOk R)
    (ids : List Nat) (ss : List Int) (seed : String) (res : ShardReservations)
    (hlast : ss.getLast? = some (-1)) (hne : res.unreservedIDs ≠ [])
    (hmerge : ∀ e, e ∈ res.idsByShard →
      ∃ i : Int, parseShardIdx e.1 = some i ∧ 0 ≤ i ∧ i.toNat < ss.length) :
    (joinElems (shardBySize R ids ss seed (some res))).Perm
      (res.unreservedIDs ++ allIDs res.idsByShard) := by
  simp only [shardBySize, unreservedPool]
  rw [if_neg (by simpa using hne)]
  simp only [mergeReservations]
  refine (joinElems_map_sortBucket _).trans ?_
  refine (joinElems_foldl_mergeEntry res.idsByShard _ ?_).trans ?_
  · intro e he
    obtain ⟨i, h1, h2, h3⟩ := hmerge e he
    refine ⟨i, h1, h2, ?_⟩
    rw [sizeLoop_length, List.length_replicate]
    exact h3
  · refine List.Perm.trans (List.Perm.append_left _ ?_) List.perm_append_comm
    obtain ⟨h1, h2, h3⟩ := sizeLoop_join (sortAndShuffleIfSeed R res.unreservedIDs seed)
      res.unreservedIDs.length (resCount (some res)) ss.length
      (sortAndShuffleIfSeed_length R _ seed) ss 0 0
      (List.replicate ss.length none) (by simp) (Nat.zero_le _) (by simp)
      (fun j _ => getD_replicate_none _ j)
    rw [sizeLoop_cursor_final _ _ _ ss 0 0 _ hlast (Nat.zero_le _)] at h3
    refine h3.trans ?_
    rw [joinElems_replicate_none, List.append_nil, List.drop_zero, Nat.sub_zero,
      List.take_of_length_le (by rw [sortAndShuffleIfSeed_length])]
    exact sortAndShuffleIfSeed_perm R hR _ seed

/-- C1 (amended): for a pool of unique identifiers, any exclusion set, a
valid reservation map whose reserved identifiers all occur in the
exclusion-filtered pool, any seed and upstream-validated parameters, the
pipeline output of the round-robin and rendezvous strategies always
partitions the pool (union of buckets plus the excluded identifiers is
the pool exactly once, no identifier in two buckets); percentage
partitions it provided the distributable pool is non-empty, and size
provided additionally the size list ends in `-1`. -/
theorem c1_amended_partition {σ : Type} (R : RNGImpl σ) (cfg : SConfig)
    (pool : List Nat) (buckets : List GoSlice)
    (hR : RNGOk R) (hnd : pool.Nodup)
    (hok : runPipeline R cfg pool = .ok buckets)
    (hsub : ∀ id, id ∈ allIDs cfg.reservedIDs →
      id ∈ applyExclusions pool cfg.excludeIDs)
    (hstrat :
      (cfg.strategy = "round-robin" ∧ cfg.shardPercentages = [] ∧
        cfg.shardSizes = [] ∧ 1 ≤ cfg.shardCount) ∨
      (cfg.strategy = "rendezvous" ∧ cfg.shardPercentages = [] ∧
        cfg.shardSizes = [] ∧ 1 ≤ cfg.shardCount) ∨
      (cfg.strategy = "percentage" ∧ cfg.shardPercentages ≠ [] ∧
        (∀ r, applyReservations (applyExclusions pool cfg.excludeIDs) cfg.reservedIDs
          (resolveShardCount cfg) = .ok r → r.unreservedIDs ≠ [])) ∨
      (cfg.strategy = "size" ∧ cfg.shardPercentages = [] ∧ cfg.shardSizes ≠ [] ∧
        cfg.shardSizes.getLast? = some (-1) ∧
        (∀ r, applyReservations (applyExclusions pool cfg.excludeIDs) cfg.reservedIDs
          (resolveShardCount cfg) = .ok r → r.unreservedIDs ≠ []))) :
    (joinElems buckets ++
      pool.filter (fun id => cfg.excludeIDs.contains id)).Perm pool ∧
    (joinElems buckets).Nodup := by
  simp only [runPipeline] at hok
  rcases hres : applyReservations (applyExclusions pool cfg.excludeIDs) cfg.reservedIDs
      (resolveShardCount cfg) with e | res
  · simp only [hres] at hok
    exact Except.noConfusion hok
  · simp only [hres] at hok
    obtain ⟨hids, hunres, hrange, hrnd⟩ := applyReservations_ok_shape _ _ _ _ hres
    have hfnd := applyExclusions_nodup pool cfg.excludeIDs hnd
    have hclose : (joinElems buckets).Perm
        (res.unreservedIDs ++ allIDs res.idsByShard) →
        ((joinElems buckets ++
          pool.filter (fun id => cfg.excludeIDs.contains id)).Perm pool ∧
          (joinElems buckets).Nodup) := by
      intro hJ
      rw [hids, hunres] at hJ
      have hJf : (joinElems buckets).Perm (applyExclusions pool cfg.excludeIDs) :=
        hJ.trans (filtered_split _ _ hfnd hrnd hsub)
      exact ⟨(hJf.append_right _).trans (applyExclusions_split pool cfg.excludeIDs),
        (hJf.nodup_iff).mpr hfnd⟩
    rcases hstrat with ⟨hs, hp, hz, hc1⟩ | ⟨hs, hp, hz, hc1⟩ | ⟨hs, hp, hune⟩ |
      ⟨hs, hp, hz, hlast, hune⟩
    · have hrsc : resolveShardCount cfg = cfg.shardCount := by
        simp only [resolveShardCount]
        rw [if_neg (by simp [hp]), if_neg (by simp [hz])]
      simp only [applyStrategy] at hok
      rw [if_pos hs] at hok
      injection hok with hb
      subst hb
      apply hclose
      apply joinElems_shardByRoundRobin R hR _ _ _ res
      intro e he
      obtain ⟨i, h1, h2, h3⟩ := hrange e (hids ▸ he)
      refine ⟨i, h1, h2, ?_⟩
      rw [hrsc] at h3
      rw [effShardCount_of_pos _ hc1]
      omega
    · have hrsc : resolveShardCount cfg = cfg.shardCount := by
        simp only [resolveShardCount]
        rw [if_neg (by simp [hp]), if_neg (by simp [hz])]
      simp only [applyStrategy] at hok
      rw [if_neg (by rw [hs]; decide), if_pos hs] at hok
      injection hok with hb
      subst hb
      apply hclose
      apply joinElems_shardByRendezvous _ _ _ res
      intro e he
      obtain ⟨i, h1, h2, h3⟩ := hrange e (hids ▸ he)
      refine ⟨i, h1, h2, ?_⟩
      rw [hrsc] at h3
      rw [effShardCount_of_pos _ hc1]
      omega
    · have hrsc : resolveShardCount cfg = (cfg.shardPercentages.length : Int) := by
        simp only [resolveShardCount]
        rw [if_pos hp]
      simp only [applyStrategy] at hok
      rw [if_neg (by rw [hs]; decide), if_neg (by rw [hs]; decide), if_pos hs] at hok
      injection hok with hb
      subst hb
      apply hclose
      apply joinElems_shardByPercentage R hR _ _ _ res hp (hune res hres)
      intro e he
      obtain ⟨i, h1, h2, h3⟩ := hrange e (hids ▸ he)
      refine ⟨i, h1, h2, ?_⟩
      rw [hrsc] at h3
      omega
    · have hrsc : resolveShardCount cfg = (cfg.shardSizes.length : Int) := by
        simp only [resolveShardCount]
        rw [if_neg (by simp [hp]), if_pos hz]
      simp only [applyStrategy] at hok
      rw [if_neg (by rw [hs]; decide), if_neg (by rw [hs]; decide),
        if_neg (by rw [hs]; decide), if_pos hs] at hok
      injection hok with hb
      subst hb
      apply hclose
      apply joinElems_shardBySize R hR _ _ _ res hlast (hune res hres)
      intro e he
      obtain ⟨i, h1, h2, h3⟩ := hrange e (hids ▸ he)
      refine ⟨i, h1, h2, ?_⟩
      rw [hrsc] at h3
      omega

theorem c1_amended_partition_witness :
    RNGOk trivialRNG ∧
    ((joinElems [some [1, 2], some ([3] : List Nat)] ++
      [(1 : Nat), 2, 3, 7].filter (fun id => [(7 : Nat)].contains id)).Perm [1, 2, 3, 7] ∧
      (joinElems [some [1, 2], some ([3] : List Nat)]).Nodup) :=
  ⟨fun _ _ h => h,
    c1_amended_partition trivialRNG ⟨"round-robin", 2, [], [], "", [7], [("shard_0", [1])]⟩
      [1, 2, 3, 7] [some [1, 2], some [3]] (fun _ _ h => h) (by decide) (by decide)
      (by decide) (Or.inl ⟨rfl, rfl, rfl, by decide⟩)⟩

/-- C9 (amended): given reservation keys that parse in the `shard_N`
form, `applyReservations` errors iff some key's index is outside
`[0, shardCount)` or some identifier occurs more than once across the
concatenation of all reservation lists; a duplicate-reservation error
names an identifier and two shard names whose lists both contain it; on
success the unreserved pool is the input pool minus the reserved
identifiers, the per-shard lists are recorded as given, and for keys
with pairwise distinct parsed indices the per-shard counts are
recorded. -/
theorem c9_amended_error_iff (ids : List Nat) (rmap : List (String × List Nat))
    (n : Int) (hparse : ∀ e, e ∈ rmap → (parseShardIdx e.1).isSome) :
    ((∃ e, applyReservations ids rmap n = .error e) ↔
      ((∃ e, e ∈ rmap ∧ ∃ i : Int, parseShardIdx e.1 = some i ∧ (i < 0 ∨ n ≤ i)) ∨
        ¬ (allIDs rmap).Nodup)) ∧
    (∀ id n1 n2,
      applyReservations ids rmap n = .error (.duplicateReservation id n1 n2) →
      ∃ l1 l2, ((n1, l1) ∈ rmap ∧ id ∈ l1) ∧ ((n2, l2) ∈ rmap ∧ id ∈ l2)) ∧
    (∀ r, applyReservations ids rmap n = .ok r →
      r.idsByShard = rmap ∧
      r.unreservedIDs = ids.filter (fun id => !((allIDs rmap).contains id)) ∧
      ((rmap.map (fun e => parseShardIdx e.1)).Nodup →
        ∀ e, e ∈ rmap → ∀ i : Int, parseShardIdx e.1 = some i →
          r.countsByShard i = e.2.length)) := by
  refine ⟨applyReservations_error_iff ids rmap n hparse, ?_, ?_⟩
  · intro id n1 n2 h
    exact applyReservations_dup_error ids rmap n id n1 n2 h
  · intro r h
    obtain ⟨h1, h2, _, _⟩ := applyReservations_ok_shape ids rmap n r h
    exact ⟨h1, h2, fun hnd2 => applyReservations_counts ids rmap n r h hnd2⟩

theorem c9_amended_error_iff_witness :
    ((∃ e, applyReservations [1, 2, 3] [("shard_0", [2])] 1 = .error e) ↔
      ((∃ e, e ∈ [("shard_0", [(2 : Nat)])] ∧
        ∃ i : Int, parseShardIdx e.1 = some i ∧ (i < 0 ∨ 1 ≤ i)) ∨
        ¬ (allIDs [("shard_0", [(2 : Nat)])]).Nodup)) ∧
    (∀ id n1 n2,
      applyReservations [1, 2, 3] [("shard_0", [2])] 1 =
        .error (.duplicateReservation id n1 n2) →
      ∃ l1 l2, ((n1, l1) ∈ [("shard_0", [(2 : Nat)])] ∧ id ∈ l1) ∧
        ((n2, l2) ∈ [("shard_0", [(2 : Nat)])] ∧ id ∈ l2)) ∧
    (∀ r, applyReservations [1, 2, 3] [("shard_0", [2])] 1 = .ok r →
      r.idsByShard = [("shard_0", [2])] ∧
      r.unreservedIDs = [1, 2, 3].filter
        (fun id => !((allIDs [("shard_0", [(2 : Nat)])]).contains id)) ∧
      (([("shard_0", [(2 : Nat)])].map (fun e => parseShardIdx e.1)).Nodup →
        ∀ e, e ∈ [("shard_0", [(2 : Nat)])] → ∀ i : Int, parseShardIdx e.1 = some i →
          r.countsByShard i = e.2.length)) :=
  c9_amended_error_iff [1, 2, 3] [("shard_0", [2])] 1 (by decide)
